import Mathlib

/-!
# Verification of the MemoryManagement allocator (`memmanager.c`)

Shallow embedding of the fixed-pool first-fit allocator.  Memory is modelled
as a map from byte addresses to block headers (`State.mem`); a header is only
meaningful at addresses where the C code placed one, exactly as in the C
program, where any byte range can be reinterpreted as a `HEADER`.
Pointer values are byte addresses (`Nat`); the C `NULL` pointer is `none`.
The header size `sizeof(HEADER)` is the parameter `H` throughout.

Sizes are kept as plain `Nat`: every size occurring in the claims is far
below the 29-bit capacity of the C bit-field, so field truncation never
fires and is omitted.  `memleft` is a C `int`, modelled as `Int`.

All loops take explicit fuel; a function returns `none` when the C code
dereferences a null/uninitialised pointer or when fuel is exhausted (the C
loop would not have terminated on that input within that many steps).
-/

/-- Block header: `used:1`, `region:2`, `size:29` bit-fields plus the
`next`/payload union.  `next` is only meaningful for free blocks. -/
structure HEADER where
  used : Bool
  region : Fin 4
  size : Nat
  next : Option Nat
deriving DecidableEq, Repr

/-- One heap region: start/end addresses, free-list head, running free total. -/
structure REGION where
  start : Option Nat
  endA : Nat
  free : Option Nat
  memleft : Int
deriving DecidableEq, Repr

/-- Global allocator state: the memory contents and the four-entry region table. -/
structure State where
  mem : Nat → HEADER
  regions : Fin 4 → REGION

/-- Allocation statistics record (`MEMSTATS`). -/
structure MEMSTATS where
  freebytes : Nat
  usedbytes : Nat
  freeblocks : Nat
  usedblocks : Nat
  memleft : Int
  largestused : Nat
  smallestused : Nat
  largestfree : Nat
  smallestfree : Nat
deriving DecidableEq, Repr

/-- Store a header at address `a`. -/
def writeMem (m : Nat → HEADER) (a : Nat) (h : HEADER) : Nat → HEADER :=
  fun x => if x = a then h else m x

/-- Update one entry of the region table. -/
def updRegions (rs : Fin 4 → REGION) (i : Fin 4) (r : REGION) : Fin 4 → REGION :=
  fun j => if j = i then r else rs j

theorem writeMem_same (m : Nat → HEADER) (a : Nat) (h : HEADER) :
    writeMem m a h a = h := by
  simp [writeMem]

theorem writeMem_other (m : Nat → HEADER) (a : Nat) (h : HEADER) (x : Nat)
    (hx : x ≠ a) : writeMem m a h x = m x := by
  simp [writeMem, hx]

theorem updRegions_same (rs : Fin 4 → REGION) (i : Fin 4) (r : REGION) :
    updRegions rs i r i = r := by
  simp [updRegions]

/-- `MemAddRegion(region, area, size)`: install a single free block spanning
the area, unless the slot is already registered. -/
def MemAddRegion (H : Nat) (s : State) (region : Fin 4) (area size : Nat) : State :=
  let r := s.regions region
  if r.start.isSome then s
  else
    let sz := size / H - 1
    { mem := writeMem s.mem area { s.mem area with next := none, size := sz, used := false },
      regions := updRegions s.regions region
        { start := some area, endA := area + size, free := some area, memleft := (sz : Int) } }

/-- `MemInit(area, size)`: register region 0. -/
def MemInit (H : Nat) (s : State) (area size : Nat) : State :=
  MemAddRegion H s 0 area size

/-- Tail of `MemFree` after the search loop: `prev->next = f` and link or
merge with `block`.  `prev = none` models the C dereference of a
null/uninitialised `prev` (undefined behaviour). -/
def memFreeAfterLoop (H : Nat) (s : State) (f : Nat) (prev block : Option Nat) :
    Option State :=
  match prev with
  | none => none
  | some pv =>
    let m1 := writeMem s.mem pv { s.mem pv with next := some f }
    let fh := m1 f
    let fEnd := f + fh.size * H
    match block with
    | some bk =>
      if fEnd = bk then
        let fh2 : HEADER :=
          { fh with size := fh.size + (m1 bk).size, next := (m1 bk).next, used := false }
        some { s with mem := writeMem m1 f fh2 }
      else
        some { s with mem := writeMem m1 f { fh with next := some bk, used := false } }
    | none =>
      if fEnd = 0 then none
      else
        some { s with mem := writeMem m1 f { fh with next := none, used := false } }

/-- The `MemFree` search loop: walk the free list while `block && block < f`,
merging into a contiguous predecessor when found. -/
def memFreeLoop (H : Nat) (s : State) (f : Nat) :
    Nat → Option Nat → Option Nat → Option State
  | 0, _, _ => none
  | fuel + 1, prev, block =>
    match block with
    | none => memFreeAfterLoop H s f prev none
    | some b =>
      if b < f then
        let bh := s.mem b
        if b + bh.size * H = f then
          let newSize := bh.size + (s.mem f).size
          let m1 := writeMem s.mem b { bh with size := newSize }
          let fEnd := b + newSize * H
          if bh.next = some fEnd then
            let bh2 : HEADER :=
              { bh with size := newSize + (m1 fEnd).size, next := (m1 fEnd).next,
                        used := false }
            some { s with mem := writeMem m1 b bh2 }
          else
            some { s with mem := m1 }
        else
          memFreeLoop H s f fuel (some b) bh.next
      else
        memFreeAfterLoop H s f prev (some b)

/-- `MemFree(p)`: return a block to the free list of its region, merging with
contiguous neighbours.  `p = none` is C `NULL`. -/
def MemFree (H fuel : Nat) (s : State) (p : Option Nat) : Option State :=
  match p with
  | none => some s
  | some pa =>
    let f := pa - H
    let fh := s.mem f
    if fh.used = false then some s
    else
      let r := s.regions fh.region
      let rml : REGION := { r with memleft := r.memleft + (fh.size : Int) }
      let s1 : State := { s with regions := updRegions s.regions fh.region rml }
      match r.free with
      | some hd =>
        if f < hd then
          let rhd : REGION := { s1.regions fh.region with free := some f }
          let s2 : State := { s1 with regions := updRegions s1.regions fh.region rhd }
          let nxt := f + fh.size * H
          if nxt = hd then
            let fh2 : HEADER :=
              { fh with size := fh.size + (s.mem hd).size, next := (s.mem hd).next,
                        used := false }
            some { s2 with mem := writeMem s2.mem f fh2 }
          else
            some { s2 with mem := writeMem s2.mem f { fh with next := some hd, used := false } }
        else
          memFreeLoop H s1 f fuel none (some hd)
      | none =>
        memFreeLoop H s1 f fuel none none

/-- The `MemAlloc` first-fit search loop.  The C `for` loop initialises
`prev = NULL` and never advances it (`block = block->next` is the only
update clause), so `prev` is threaded through the scan unchanged; the
`prev->next` unlink in the exact-fit branch is consequently dead code when
entered from `MemAlloc`. -/
def memAllocLoop (H : Nat) (s : State) (rIdx : Fin 4) (nelems : Nat) :
    Nat → Option Nat → Option Nat → Option (Option Nat × State)
  | 0, _, _ => none
  | fuel + 1, prev, block =>
    match block with
    | none => some (none, s)
    | some b =>
      let bh := s.mem b
      if nelems ≤ bh.size then
        if nelems < bh.size then
          let ns := bh.size - nelems
          let m1 := writeMem s.mem b { bh with size := ns, used := false, next := none }
          let b2 := b + ns * H
          let m2 := writeMem m1 b2 { m1 b2 with size := nelems, used := true }
          let r := s.regions rIdx
          let r2 : REGION := { r with memleft := r.memleft - (nelems : Int) }
          some (some (b2 + H), { mem := m2, regions := updRegions s.regions rIdx r2 })
        else
          let s1 : State :=
            match prev with
            | none =>
              let rf : REGION := { s.regions rIdx with free := bh.next }
              { s with regions := updRegions s.regions rIdx rf }
            | some pv =>
              { s with mem := writeMem s.mem pv { s.mem pv with next := bh.next } }
          let r1 := s1.regions rIdx
          let r2 : REGION := { r1 with memleft := r1.memleft - (nelems : Int) }
          some (some (b + H), { s1 with regions := updRegions s1.regions rIdx r2 })
      else
        memAllocLoop H s rIdx nelems fuel prev bh.next

/-- `MemAlloc(nb, region)`: round the byte count up to header units plus one
header unit, then first-fit search. -/
def MemAlloc (H fuel : Nat) (s : State) (nb : Nat) (rIdx : Fin 4) :
    Option (Option Nat × State) :=
  let nelems := (nb + H - 1) / H + 1
  memAllocLoop H s rIdx nelems fuel none (s.regions rIdx).free

/-- Sentinel used by `MemStats` for the "smallest" extremes. -/
def MAXBYTES : Nat := 1000000

/-- The free-list walk of `MemStats`. -/
def freeWalkS (s : State) : Nat → Option Nat → MEMSTATS → Option MEMSTATS
  | _, none, st => some st
  | 0, some _, _ => none
  | fuel + 1, some p, st =>
    let sz := (s.mem p).size
    freeWalkS s fuel (s.mem p).next
      { st with
        freeblocks := st.freeblocks + 1
        freebytes := st.freebytes + sz
        largestfree := if st.largestfree < sz then sz else st.largestfree
        smallestfree := if sz < st.smallestfree then sz else st.smallestfree }

/-- The whole-address-range walk of `MemStats`: step from `start` by each
block's size while `p < end && p->size > 0`, accumulating used-block stats. -/
def rangeWalkS (H : Nat) (s : State) (endA : Nat) :
    Nat → Nat → MEMSTATS → Option MEMSTATS
  | 0, p, st =>
    if p < endA ∧ 0 < (s.mem p).size then none else some st
  | fuel + 1, p, st =>
    if p < endA ∧ 0 < (s.mem p).size then
      let sz := (s.mem p).size
      let st' :=
        if (s.mem p).used then
          { st with
            usedblocks := st.usedblocks + 1
            usedbytes := st.usedbytes + sz
            largestused := if st.largestused < sz then sz else st.largestused
            smallestused := if sz < st.smallestused then sz else st.smallestused }
        else st
      rangeWalkS H s endA fuel (p + sz * H) st'
    else some st

/-- `MemStats(stats, region)` (named `MemStatistics` in `memmanager.c`):
the two traversals plus sentinel fix-up and byte conversion.  When the free
list is empty the C code returns early, before the used-block walk and
before the fix-up/conversion. -/
def MemStats (H fuel : Nat) (s : State) (rIdx : Fin 4) : Option MEMSTATS :=
  let r := s.regions rIdx
  let st0 : MEMSTATS :=
    { memleft := r.memleft, freeblocks := 0, freebytes := 0, usedblocks := 0,
      usedbytes := 0, largestused := 0, smallestused := MAXBYTES,
      largestfree := 0, smallestfree := MAXBYTES }
  match r.free with
  | none => some st0
  | some hd =>
    match freeWalkS s fuel (some hd) st0 with
    | none => none
    | some st1 =>
      match rangeWalkS H s r.endA fuel (r.start.getD 0) st1 with
      | none => none
      | some st2 =>
        let st3 : MEMSTATS :=
          { st2 with
            smallestfree := if st2.smallestfree = MAXBYTES then 0 else st2.smallestfree
            smallestused := if st2.smallestused = MAXBYTES then 0 else st2.smallestused }
        some { st3 with
          freebytes := st3.freebytes * H
          usedbytes := st3.usedbytes * H
          largestfree := st3.largestfree * H
          largestused := st3.largestused * H
          smallestfree := st3.smallestfree * H
          smallestused := st3.smallestused * H
          memleft := st3.memleft * (H : Int) }

/-! ## Observations on states -/

/-- The list of free-list node addresses reachable from `from?`. -/
def freeChain (s : State) : Nat → Option Nat → Option (List Nat)
  | _, none => some []
  | 0, some _ => none
  | fuel + 1, some a =>
    match freeChain s fuel (s.mem a).next with
    | none => none
    | some l => some (a :: l)

/-- Total size (in units) of the listed free blocks: the traversal-computed
free total. -/
def freeSum (s : State) (l : List Nat) : Nat :=
  l.foldr (fun a acc => (s.mem a).size + acc) 0

/-- Adjacent list entries are strictly ascending by address. -/
def ascOK : List Nat → Bool
  | a :: b :: t => decide (a < b) && ascOK (b :: t)
  | _ => true

/-- No adjacent list entries are contiguous (`a + size*H ≠ b`). -/
def noMergeOK (H : Nat) (s : State) : List Nat → Bool
  | a :: b :: t => decide (a + (s.mem a).size * H ≠ b) && noMergeOK H s (b :: t)
  | _ => true

/-- Strict separation of adjacent entries: each node ends strictly below the
next node's address.  This implies `ascOK` and `noMergeOK`. -/
def gapsOK (H : Nat) (s : State) : List Nat → Bool
  | a :: b :: t => decide (a + (s.mem a).size * H < b) && gapsOK H s (b :: t)
  | _ => true

/-- Every listed node is marked free. -/
def nodesFreeOK (s : State) (l : List Nat) : Bool :=
  l.all fun a => !(s.mem a).used

/-- The all-zero initial state: zeroed memory (as for a static C buffer) and
an empty region table. -/
def hdr0 : HEADER := { used := false, region := 0, size := 0, next := none }

def state0 : State :=
  { mem := fun _ => hdr0,
    regions := fun _ => { start := none, endA := 0, free := none, memleft := 0 } }

/-! ## Concrete execution traces (H = 8 bytes per header, region of 160 bytes)

These mirror the repository's own test driver: `MemInit(buffer, 160)` on a
zeroed static buffer, followed by allocations and frees.  All states are
reachable through the public API. -/

/-- Region 0 registered over `[0, 160)`: one free block of 19 units. -/
def sInit : State := MemInit 8 state0 0 160

/-- After `MemAlloc(10)`: split, payload at byte 136. -/
def sT1 : State := ((MemAlloc 8 30 sInit 10 0).getD (none, sInit)).2

/-- After a second `MemAlloc(10)`: payload at byte 112. -/
def sT2 : State := ((MemAlloc 8 30 sT1 10 0).getD (none, sT1)).2

/-- After `MemFree(136)`: free list `[0 (13 units), 128 (3 units)]`. -/
def sT3 : State := (MemFree 8 30 sT2 (some 136)).getD sT2

/-- After a third `MemAlloc(10)` taken from the two-node free list. -/
def sT4 : State := ((MemAlloc 8 30 sT3 10 0).getD (none, sT3)).2

/-- After a third `MemAlloc(10)` from `sT2`: payload at byte 88. -/
def sU3 : State := ((MemAlloc 8 30 sT2 10 0).getD (none, sT2)).2

/-- After `MemFree(112)` (second allocation freed first). -/
def sV1 : State := (MemFree 8 30 sU3 (some 112)).getD sU3

/-- After `MemFree(88)`: merged into the contiguous free predecessor. -/
def sV2 : State := (MemFree 8 30 sV1 (some 88)).getD sV1

/-- After freeing 136 as well: back to a single 19-unit free block. -/
def sV3 : State := (MemFree 8 30 sV2 (some 136)).getD sV2

/-- Second `MemFree(88)` applied to `sV2` (a double free). -/
def sW : State := (MemFree 8 30 sV2 (some 88)).getD sV2

/-- `MemAlloc(10)` then `MemAlloc(120)`: the second request is an exact fit
for the remaining 16-unit free block, so the free list becomes empty while
the block at 128 is still allocated. -/
def sX1 : State := ((MemAlloc 8 30 sInit 10 0).getD (none, sInit)).2

def sX2 : State := ((MemAlloc 8 30 sX1 120 0).getD (none, sX1)).2

/-! ## C1: exact-fit allocation does not mark the block used -/

/-- C1 (code bug): `MemAlloc(144)` on the fresh 160-byte region computes
`nelems = 19`, an exact fit for the single 19-unit free node.  The node is
unlinked (the free list becomes empty and the payload pointer 8 is
returned), but its header keeps `used = false` — the exact-fit branch of
`MemAlloc` never sets `used = 1` (and no branch ever writes `region`), so
the returned block's header does not record it as a used block, contrary to
the claim. -/
theorem C1_exact_fit_not_marked_used :
    (MemAlloc 8 30 sInit 144 0).map Prod.fst = some (some 8) ∧
    (((MemAlloc 8 30 sInit 144 0).getD (none, sInit)).2.regions 0).free = none ∧
    ((MemAlloc 8 30 sInit 144 0).getD (none, sInit)).2.mem 0 =
      { used := false, region := 0, size := 19, next := none } := by
  decide

/-! ## C2: split drops the remainder's successor link -/

/-- C2 (code bug): in `sT3` the free list is `[0, 128]` (node 0 has 13
units, node 128 has 3).  `MemAlloc(10)` selects node 0 and splits it, but
the split branch executes `block->next = NULL` on the remainder, so the
remainder's successor link to node 128 is destroyed and the free list is
truncated to `[0]` — membership is affected, contrary to the claim. -/
theorem C2_split_truncates_free_list :
    freeChain sT3 30 ((sT3.regions 0).free) = some [0, 128] ∧
    (sT3.mem 0).next = some 128 ∧
    (MemAlloc 8 30 sT3 10 0).map Prod.fst = some (some 88) ∧
    (sT4.mem 0).next = none ∧
    freeChain sT4 30 ((sT4.regions 0).free) = some [0] := by
  decide

/-! ## C6: memleft no longer matches the traversal total -/

/-- C6 (code bug): after the same reachable sequence (`MemInit`, two
`MemAlloc(10)`, `MemFree` of the first, `MemAlloc(10)`), the free-list
truncation has leaked node 128: `memleft` is 13 units but the sum of the
sizes of the nodes reachable from the free-list head is only 10. -/
theorem C6_memleft_diverges_from_traversal :
    freeChain sT4 30 ((sT4.regions 0).free) = some [0] ∧
    freeSum sT4 [0] = 10 ∧
    (sT4.regions 0).memleft = 13 ∧
    (sT4.regions 0).memleft ≠ (freeSum sT4 [0] : Int) := by
  decide

/-! ## C3: freeing with an empty free list dereferences a null link -/

/-- C3 counterexample: in the reachable state `sX2` the block at 128 is
used and region 0's free list is empty.  `MemFree(136)` then falls past the
head test (`f < NULL` is false), skips the walk loop (no nodes), and
executes `prev->next = f` with `prev` never having been set — a
null/uninitialised dereference, modelled as `none`.  The freed block does
not become the new head; the operation does not complete. -/
theorem C3_empty_free_list_crash :
    (sX2.regions 0).free = none ∧
    (sX2.mem 128).used = true ∧
    (MemFree 8 30 sX2 (some 136)).isNone = true := by
  decide

/-- C3 amended: when the free list is NON-empty and the freed block's
address is below the head, the block becomes the new head, absorbs the old
head exactly when contiguous, and the call completes without touching any
null link. -/
theorem C3_below_head_becomes_new_head (H fuel : Nat) (s : State) (pa hd : Nat)
    (hused : (s.mem (pa - H)).used = true)
    (hfree : (s.regions (s.mem (pa - H)).region).free = some hd)
    (hlt : pa - H < hd) :
    ∃ s', MemFree H fuel s (some pa) = some s' ∧
      (s'.regions (s.mem (pa - H)).region).free = some (pa - H) ∧
      (s'.mem (pa - H)).used = false ∧
      (pa - H + (s.mem (pa - H)).size * H = hd →
        (s'.mem (pa - H)).size = (s.mem (pa - H)).size + (s.mem hd).size ∧
        (s'.mem (pa - H)).next = (s.mem hd).next) ∧
      (pa - H + (s.mem (pa - H)).size * H ≠ hd →
        (s'.mem (pa - H)).size = (s.mem (pa - H)).size ∧
        (s'.mem (pa - H)).next = some hd) := by
  simp only [MemFree, hused, hfree, Bool.true_eq_false, if_false, if_pos hlt]
  by_cases hc : pa - H + (s.mem (pa - H)).size * H = hd
  · rw [if_pos hc]
    refine ⟨_, rfl, ?_, ?_, ?_, ?_⟩
    · simp [updRegions_same]
    · simp [writeMem_same]
    · intro _; constructor <;> simp [writeMem_same]
    · intro h; exact absurd hc h
  · rw [if_neg hc]
    refine ⟨_, rfl, ?_, ?_, ?_, ?_⟩
    · simp [updRegions_same]
    · simp [writeMem_same]
    · intro h; exact absurd h hc
    · intro _; constructor <;> simp [writeMem_same]

/-- Reachable state for the `C3` witness: from `sT3` (free list
`[0 (13), 128 (3)]`, used block at 104), `MemAlloc(96)` is an exact fit
for the head node, leaving free head 128 above the used block at 104. -/
def sY : State := ((MemAlloc 8 30 sT3 96 0).getD (none, sT3)).2

/-- Witness for `C3_below_head_becomes_new_head`: freeing the block at 104
of `sY` (payload pointer 112), whose address is below the free head 128 and
contiguous with it. -/
theorem C3_below_head_becomes_new_head_witness :
    ((sY.mem (112 - 8)).used = true ∧
     (sY.regions (sY.mem (112 - 8)).region).free = some 128 ∧
     112 - 8 < 128) ∧
    (∃ s', MemFree 8 30 sY (some 112) = some s' ∧
      (s'.regions (sY.mem (112 - 8)).region).free = some (112 - 8) ∧
      (s'.mem (112 - 8)).used = false ∧
      (112 - 8 + (sY.mem (112 - 8)).size * 8 = 128 →
        (s'.mem (112 - 8)).size = (sY.mem (112 - 8)).size + (sY.mem 128).size ∧
        (s'.mem (112 - 8)).next = (sY.mem 128).next) ∧
      (112 - 8 + (sY.mem (112 - 8)).size * 8 ≠ 128 →
        (s'.mem (112 - 8)).size = (sY.mem (112 - 8)).size ∧
        (s'.mem (112 - 8)).next = some 128)) :=
  ⟨⟨by decide, by decide, by decide⟩,
   C3_below_head_becomes_new_head 8 30 sY 112 128 (by decide) (by decide) (by decide)⟩

/-! ## C4: double free is not always a no-op -/

/-- C4 counterexample: in the round-trip trace, `MemFree(88)` on `sV1`
merges block 80 into its contiguous free predecessor (node 0), leaving the
stale header at 80 still marked `used = true` (state `sV2`, free list
`[0]`, `memleft = 16`).  Calling `MemFree(88)` a second time is NOT a
no-op: the stale header passes the already-free guard, `memleft` is
inflated to 19 and the interior address 80 is spliced into the free list,
so the state after two calls differs from the state after one. -/
theorem C4_double_free_corrupts_after_merge :
    (MemFree 8 30 sV1 (some 88)).isSome = true ∧
    (sV2.mem 80).used = true ∧
    freeChain sV2 30 ((sV2.regions 0).free) = some [0] ∧
    (sV2.regions 0).memleft = 16 ∧
    (MemFree 8 30 sV2 (some 88)).map
      (fun s => ((s.regions 0).memleft, freeChain s 30 ((s.regions 0).free))) =
      some (19, some [0, 80]) := by
  decide

/-- C4 amended: `MemFree` is a no-op exactly when the header of the passed
block is (still) marked free.  After a first `MemFree` that installed the
block as its own free-list node (new-head and insertion branches) the flag
is cleared and the second call is a silent no-op; after the
merge-into-contiguous-predecessor branch the stale header stays `used` and
the second call corrupts state (see the counterexample). -/
theorem C4_free_noop_when_header_free (H fuel : Nat) (s : State) (pa : Nat)
    (h : (s.mem (pa - H)).used = false) :
    MemFree H fuel s (some pa) = some s := by
  simp [MemFree, h]

/-- Witness for `C4_free_noop_when_header_free`: the second `MemFree(112)`
in the round-trip trace (block 104 was freed as its own list node, so its
header is marked free) leaves `sV2` unchanged. -/
theorem C4_free_noop_when_header_free_witness :
    (sV2.mem (112 - 8)).used = false ∧ MemFree 8 30 sV2 (some 112) = some sV2 :=
  ⟨by decide, C4_free_noop_when_header_free 8 30 sV2 112 (by decide)⟩

/-! ## C7: statistics and the sentinel -/

/-- C7 counterexample: in the reachable state `sX2`, region 0's free list
is empty while the block at 128 is used.  `MemStats` takes the early
return: the used-block walk never runs (`usedblocks = 0`, `usedbytes = 0`
despite the used block) and the smallest-used extreme is reported as the
raw internal sentinel 1000000, not 0. -/
theorem C7_empty_free_list_reports_sentinel :
    (sX2.regions 0).free = none ∧
    (sX2.mem 128).used = true ∧
    (MemStats 8 160 sX2 0).map
      (fun st => (st.usedblocks, st.usedbytes, st.smallestused)) =
      some (0, 0, 1000000) := by
  decide

theorem freeWalkS_used_fields (s : State) :
    ∀ (fuel : Nat) (b : Option Nat) (st st' : MEMSTATS),
      freeWalkS s fuel b st = some st' →
      st'.usedblocks = st.usedblocks ∧ st'.smallestused = st.smallestused := by
  intro fuel
  induction fuel with
  | zero =>
    intro b st st' h
    cases b with
    | none => simp only [freeWalkS, Option.some.injEq] at h; subst h; exact ⟨rfl, rfl⟩
    | some p => simp [freeWalkS] at h
  | succ n ih =>
    intro b st st' h
    cases b with
    | none => simp only [freeWalkS, Option.some.injEq] at h; subst h; exact ⟨rfl, rfl⟩
    | some p =>
      simp only [freeWalkS] at h
      obtain ⟨h1, h2⟩ := ih _ _ _ h
      exact ⟨h1, h2⟩

theorem rangeWalkS_usedblocks_mono (H : Nat) (s : State) (endA : Nat) :
    ∀ (fuel : Nat) (p : Nat) (st st' : MEMSTATS),
      rangeWalkS H s endA fuel p st = some st' →
      st.usedblocks ≤ st'.usedblocks := by
  intro fuel
  induction fuel with
  | zero =>
    intro p st st' h
    simp only [rangeWalkS] at h
    split at h
    · contradiction
    · injection h with h; subst h; exact le_refl _
  | succ n ih =>
    intro p st st' h
    simp only [rangeWalkS] at h
    split at h
    · split at h
      · exact le_trans (by simp) (ih _ _ _ h)
      · exact ih _ _ _ h
    · injection h with h; subst h; exact le_refl _

theorem rangeWalkS_no_used_smallest (H : Nat) (s : State) (endA : Nat) :
    ∀ (fuel : Nat) (p : Nat) (st st' : MEMSTATS),
      rangeWalkS H s endA fuel p st = some st' →
      st'.usedblocks = st.usedblocks →
      st'.smallestused = st.smallestused := by
  intro fuel
  induction fuel with
  | zero =>
    intro p st st' h _
    simp only [rangeWalkS] at h
    split at h
    · contradiction
    · injection h with h; subst h; rfl
  | succ n ih =>
    intro p st st' h hub
    simp only [rangeWalkS] at h
    split at h
    · split at h
      · exfalso
        have := rangeWalkS_usedblocks_mono H s endA n _ _ _ h
        simp at this
        omega
      · exact ih _ _ _ h hub
    · injection h with h; subst h; rfl

/-- C7 amended: whenever the free list is NON-empty, `MemStats` runs both
walks and reports the smallest-used extreme as 0 (never the sentinel) when
no used blocks exist; with an EMPTY free list it instead returns early with
zero used counts and the raw sentinel (see the counterexample). -/
theorem C7_nonempty_no_used_smallest_zero (H fuel : Nat) (s : State) (rIdx : Fin 4)
    (hd : Nat) (st : MEMSTATS)
    (hfree : (s.regions rIdx).free = some hd)
    (hstats : MemStats H fuel s rIdx = some st)
    (hnone : st.usedblocks = 0) :
    st.smallestused = 0 := by
  simp only [MemStats, hfree] at hstats
  cases hfw : freeWalkS s fuel (some hd)
      { freebytes := 0, usedbytes := 0, freeblocks := 0, usedblocks := 0,
        memleft := (s.regions rIdx).memleft, largestused := 0,
        smallestused := MAXBYTES, largestfree := 0, smallestfree := MAXBYTES } with
  | none =>
    simp only [hfw] at hstats
    exact Option.noConfusion hstats
  | some st1 =>
    simp only [hfw] at hstats
    cases hrw : rangeWalkS H s (s.regions rIdx).endA fuel
        ((s.regions rIdx).start.getD 0) st1 with
    | none =>
      simp only [hrw] at hstats
      exact Option.noConfusion hstats
    | some st2 =>
      simp only [hrw, Option.some.injEq] at hstats
      subst hstats
      simp only at hnone ⊢
      obtain ⟨hub1, hsu1⟩ := freeWalkS_used_fields s fuel (some hd) _ _ hfw
      have hub2 : st2.usedblocks = st1.usedblocks := by
        simp only at hub1
        omega
      have hsu2 := rangeWalkS_no_used_smallest H s _ fuel _ _ _ hrw hub2
      rw [hsu2, hsu1]
      simp [MAXBYTES]

/-- The statistics record reported at the end of the round-trip trace. -/
def stRT : MEMSTATS :=
  { freebytes := 152, usedbytes := 0, freeblocks := 1, usedblocks := 0,
    memleft := 152, largestused := 0, smallestused := 0, largestfree := 152,
    smallestfree := 152 }

/-- Witness for `C7_nonempty_no_used_smallest_zero`: the round-trip end
state `sV3` has a non-empty free list and no used blocks, and `MemStats`
reports `smallestused = 0`, not the sentinel. -/
theorem C7_nonempty_no_used_smallest_zero_witness :
    ((sV3.regions 0).free = some 0 ∧ MemStats 8 160 sV3 0 = some stRT ∧
     stRT.usedblocks = 0) ∧ stRT.smallestused = 0 :=
  ⟨⟨by decide, by decide, by decide⟩,
   C7_nonempty_no_used_smallest_zero 8 160 sV3 0 0 stRT (by decide) (by decide) (by decide)⟩

/-! ## Free-chain inversion lemmas -/

theorem freeChain_none_eq (s : State) (cf : Nat) : freeChain s cf none = some [] := by
  cases cf <;> rfl

theorem freeChain_some_inv (s : State) (cf a : Nat) (l : List Nat)
    (h : freeChain s cf (some a) = some l) :
    ∃ cf' l', cf = cf' + 1 ∧ l = a :: l' ∧
      freeChain s cf' ((s.mem a).next) = some l' := by
  cases cf with
  | zero => simp [freeChain] at h
  | succ n =>
    simp only [freeChain] at h
    cases hr : freeChain s n ((s.mem a).next) with
    | none => rw [hr] at h; exact Option.noConfusion h
    | some l' =>
      rw [hr] at h
      injection h with h
      exact ⟨n, l', rfl, h.symm, hr⟩

/-! ## C8: exhausted allocation is failure with no state change -/

theorem memAllocLoop_no_fit (H : Nat) (s : State) (rIdx : Fin 4) (nelems : Nat) :
    ∀ (l : List Nat) (cf fuel : Nat) (prev blk : Option Nat),
      freeChain s cf blk = some l →
      (∀ a ∈ l, (s.mem a).size < nelems) →
      l.length < fuel →
      memAllocLoop H s rIdx nelems fuel prev blk = some (none, s) := by
  intro l
  induction l with
  | nil =>
    intro cf fuel prev blk hch hsm hf
    cases blk with
    | none =>
      cases fuel with
      | zero => omega
      | succ n => rfl
    | some b =>
      obtain ⟨cf', l', _, hl, _⟩ := freeChain_some_inv s cf b _ hch
      exact List.noConfusion hl
  | cons a t ih =>
    intro cf fuel prev blk hch hsm hf
    cases blk with
    | none =>
      rw [freeChain_none_eq] at hch
      injection hch with hch
      exact List.noConfusion hch
    | some b =>
      obtain ⟨cf', l', _, hl, hch'⟩ := freeChain_some_inv s cf b _ hch
      injection hl with hb hl'
      subst hb; subst hl'
      cases fuel with
      | zero => exact absurd hf (by omega)
      | succ n =>
        have hsz : (s.mem a).size < nelems := hsm a (List.mem_cons_self a t)
        simp only [memAllocLoop]
        rw [if_neg (by omega)]
        exact ih cf' n prev _ hch'
          (fun x hx => hsm x (List.mem_cons_of_mem _ hx))
          (by simp at hf; omega)

/-- C8: if every node of the region's free list is smaller than the
computed unit count, `MemAlloc` returns the failure indicator and the
returned state is literally the input state — free list, `memleft` and all
block headers unchanged. -/
theorem C8_exhausted_alloc_no_mutation (H fuel cf : Nat) (s : State) (nb : Nat)
    (rIdx : Fin 4) (l : List Nat)
    (hchain : freeChain s cf ((s.regions rIdx).free) = some l)
    (hsmall : ∀ a ∈ l, (s.mem a).size < (nb + H - 1) / H + 1)
    (hfuel : l.length < fuel) :
    MemAlloc H fuel s nb rIdx = some (none, s) :=
  memAllocLoop_no_fit H s rIdx _ l cf fuel none _ hchain hsmall hfuel

/-- Witness for `C8_exhausted_alloc_no_mutation`: requesting 200 bytes from
the fresh 160-byte region (free list `[0]`, 19 units < 26 units needed). -/
theorem C8_exhausted_alloc_no_mutation_witness :
    (freeChain sInit 2 ((sInit.regions 0).free) = some [0] ∧
     (∀ a ∈ [0], (sInit.mem a).size < (200 + 8 - 1) / 8 + 1) ∧
     ([0] : List Nat).length < 30) ∧
    MemAlloc 8 30 sInit 200 0 = some (none, sInit) :=
  ⟨⟨by decide, by decide, by decide⟩,
   C8_exhausted_alloc_no_mutation 8 30 2 sInit 200 0 [0] (by decide) (by decide) (by decide)⟩

/-! ## C10: zero-byte allocation -/

/-- C10: a request of 0 bytes rounds to exactly 1 unit (the header reserve
alone); against any region whose free list is non-empty (head of size at
least 1 unit) it succeeds, returns a payload pointer, and decrements
`memleft` by exactly 1 unit. -/
theorem C10_zero_byte_alloc (H fuel : Nat) (s : State) (rIdx : Fin 4) (hd : Nat)
    (hH : 0 < H) (hfree : (s.regions rIdx).free = some hd)
    (hsz : 1 ≤ (s.mem hd).size) (hfuel : 0 < fuel) :
    (0 + H - 1) / H + 1 = 1 ∧
    ∃ p s', MemAlloc H fuel s 0 rIdx = some (some p, s') ∧
      (s'.regions rIdx).memleft = (s.regions rIdx).memleft - 1 := by
  have hne : (0 + H - 1) / H + 1 = 1 := by
    have h1 : 0 + H - 1 < H := by omega
    rw [Nat.div_eq_of_lt h1]
  refine ⟨hne, ?_⟩
  obtain ⟨n, rfl⟩ : ∃ n, fuel = n + 1 := ⟨fuel - 1, by omega⟩
  simp only [MemAlloc, hne, hfree, memAllocLoop]
  by_cases h1 : (1 : Nat) < (s.mem hd).size
  · rw [if_pos hsz, if_pos h1]
    refine ⟨_, _, rfl, ?_⟩
    simp [updRegions_same]
  · rw [if_pos hsz, if_neg h1]
    refine ⟨_, _, rfl, ?_⟩
    simp [updRegions_same]

/-- Witness for `C10_zero_byte_alloc`: `MemAlloc(0)` on the fresh region. -/
theorem C10_zero_byte_alloc_witness :
    (0 < 8 ∧ (sInit.regions 0).free = some 0 ∧ 1 ≤ (sInit.mem 0).size ∧ 0 < 30) ∧
    ((0 + 8 - 1) / 8 + 1 = 1 ∧
     ∃ p s', MemAlloc 8 30 sInit 0 0 = some (some p, s') ∧
       (s'.regions 0).memleft = (sInit.regions 0).memleft - 1) :=
  ⟨⟨by decide, by decide, by decide, by decide⟩,
   C10_zero_byte_alloc 8 30 sInit 0 0 (by decide) (by decide) (by decide) (by decide)⟩

/-! ## Single-step characterisation lemmas (used for the round-trip scenario) -/

/-- A split allocation taken from the head of the free list: the head keeps
the lower address with its size shrunk, and the upper portion is carved as
the returned used block. -/
theorem memAlloc_split_head (H fuel : Nat) (s : State) (rIdx : Fin 4) (nb u b : Nat)
    (hu : u = (nb + H - 1) / H + 1)
    (hfree : (s.regions rIdx).free = some b)
    (hfit : u < (s.mem b).size)
    (hne : ((s.mem b).size - u) * H ≠ 0) :
    MemAlloc H (fuel + 1) s nb rIdx =
      some (some (b + ((s.mem b).size - u) * H + H),
        { mem := writeMem
            (writeMem s.mem b
              { s.mem b with size := (s.mem b).size - u, used := false, next := none })
            (b + ((s.mem b).size - u) * H)
            { s.mem (b + ((s.mem b).size - u) * H) with size := u, used := true },
          regions := updRegions s.regions rIdx
            { s.regions rIdx with
                memleft := (s.regions rIdx).memleft - (u : Int) } }) := by
  subst hu
  simp only [MemAlloc, hfree, memAllocLoop]
  rw [if_pos (le_of_lt hfit), if_pos hfit]
  have hj : b + ((s.mem b).size - ((nb + H - 1) / H + 1)) * H ≠ b := by
    intro h
    apply hne
    omega
  rw [writeMem_other _ _ _ _ hj]

/-- Freeing a block above a single-node free list, not contiguous with it:
the block is linked in after the node, as the new tail. -/
theorem memFree_insert_after (H fuel : Nat) (s : State) (pa c : Nat)
    (hused : (s.mem (pa - H)).used = true)
    (hfree : (s.regions (s.mem (pa - H)).region).free = some c)
    (hcf : c < pa - H)
    (hnc : c + (s.mem c).size * H ≠ pa - H)
    (hcnext : (s.mem c).next = none)
    (hfe : pa - H + (s.mem (pa - H)).size * H ≠ 0) :
    MemFree H (fuel + 2) s (some pa) = some
      { mem := writeMem
          (writeMem s.mem c { s.mem c with next := some (pa - H) })
          (pa - H)
          { s.mem (pa - H) with next := none, used := false },
        regions := updRegions s.regions (s.mem (pa - H)).region
          { s.regions (s.mem (pa - H)).region with
              memleft := (s.regions (s.mem (pa - H)).region).memleft +
                ((s.mem (pa - H)).size : Int) } } := by
  simp only [MemFree, hused, hfree, Bool.true_eq_false, if_false]
  rw [if_neg (by omega)]
  simp only [memFreeLoop]
  rw [if_pos hcf, if_neg hnc, hcnext]
  simp only [memFreeLoop, memFreeAfterLoop]
  have hfc : pa - H ≠ c := by omega
  rw [writeMem_other _ _ _ _ hfc]
  rw [if_neg hfe]

/-- Freeing a block contiguous with its free predecessor `c` whose
successor `d` is in turn contiguous with the enlarged block: both merges
happen, `d` is absorbed and unlinked. -/
theorem memFree_merge_nested (H fuel : Nat) (s : State) (pa c d : Nat)
    (hused : (s.mem (pa - H)).used = true)
    (hfree : (s.regions (s.mem (pa - H)).region).free = some c)
    (hcf : c < pa - H)
    (hcont : c + (s.mem c).size * H = pa - H)
    (hcnext : (s.mem c).next = some d)
    (hd : c + ((s.mem c).size + (s.mem (pa - H)).size) * H = d)
    (hdc : d ≠ c) :
    MemFree H (fuel + 1) s (some pa) = some
      { mem := writeMem
          (writeMem s.mem c
            { s.mem c with size := (s.mem c).size + (s.mem (pa - H)).size })
          c
          { s.mem c with
              size := (s.mem c).size + (s.mem (pa - H)).size + (s.mem d).size,
              next := (s.mem d).next, used := false },
        regions := updRegions s.regions (s.mem (pa - H)).region
          { s.regions (s.mem (pa - H)).region with
              memleft := (s.regions (s.mem (pa - H)).region).memleft +
                ((s.mem (pa - H)).size : Int) } } := by
  simp only [MemFree, hused, hfree, Bool.true_eq_false, if_false]
  rw [if_neg (by omega)]
  simp only [memFreeLoop]
  rw [if_pos hcf, if_pos hcont, hcnext, hd]
  rw [if_pos rfl]
  rw [writeMem_other _ _ _ _ hdc]

/-- Freeing a block contiguous with its free predecessor `c` when the
enlarged block does not reach `c`'s successor: only the first merge
happens (note: the absorbed header's `used` flag is NOT cleared). -/
theorem memFree_merge_simple (H fuel : Nat) (s : State) (pa c : Nat)
    (hused : (s.mem (pa - H)).used = true)
    (hfree : (s.regions (s.mem (pa - H)).region).free = some c)
    (hcf : c < pa - H)
    (hcont : c + (s.mem c).size * H = pa - H)
    (hnon : (s.mem c).next ≠
      some (c + ((s.mem c).size + (s.mem (pa - H)).size) * H)) :
    MemFree H (fuel + 1) s (some pa) = some
      { mem := writeMem s.mem c
          { s.mem c with size := (s.mem c).size + (s.mem (pa - H)).size },
        regions := updRegions s.regions (s.mem (pa - H)).region
          { s.regions (s.mem (pa - H)).region with
              memleft := (s.regions (s.mem (pa - H)).region).memleft +
                ((s.mem (pa - H)).size : Int) } } := by
  simp only [MemFree, hused, hfree, Bool.true_eq_false, if_false]
  rw [if_neg (by omega)]
  simp only [memFreeLoop]
  rw [if_pos hcf, if_pos hcont, if_neg hnon]

/-- Statistics of a region whose free list is a single free block of `m`
units at `b` tiling up to a zero-size header: the free walk sees one block
and the address walk stops at the zero header, so the reported free bytes
are `m * H` with no used blocks. -/
theorem memStats_single_free (H fuel : Nat) (s : State) (rIdx : Fin 4) (b m : Nat)
    (hfuel : 0 < fuel)
    (hstart : (s.regions rIdx).start = some b)
    (hfree : (s.regions rIdx).free = some b)
    (hsz : (s.mem b).size = m) (hm : 0 < m)
    (hnext : (s.mem b).next = none)
    (hub : (s.mem b).used = false)
    (hend : b + m * H < (s.regions rIdx).endA)
    (hzero : (s.mem (b + m * H)).size = 0) :
    (MemStats H fuel s rIdx).map (fun st => (st.freebytes, st.usedblocks)) =
      some (m * H, 0) := by
  obtain ⟨k, rfl⟩ : ∃ k, fuel = k + 1 := ⟨fuel - 1, by omega⟩
  simp only [MemStats, hfree]
  have hfw : ∀ st : MEMSTATS, freeWalkS s (k + 1) (some b) st = some
      { st with
        freeblocks := st.freeblocks + 1
        freebytes := st.freebytes + m
        largestfree := if st.largestfree < m then m else st.largestfree
        smallestfree := if m < st.smallestfree then m else st.smallestfree } := by
    intro st
    simp only [freeWalkS, hsz, hnext]
  have hrw : ∀ st : MEMSTATS, rangeWalkS H s (s.regions rIdx).endA (k + 1)
      ((s.regions rIdx).start.getD 0) st = some st := by
    intro st
    rw [hstart]
    simp only [Option.getD_some, rangeWalkS, hsz, hub]
    rw [if_pos ⟨by omega, hm⟩]
    simp only [Bool.false_eq_true, if_false]
    cases k with
    | zero =>
      simp only [rangeWalkS]
      rw [if_neg (by rw [hzero]; omega)]
    | succ k' =>
      simp only [rangeWalkS]
      rw [if_neg (by rw [hzero]; omega)]
  simp only [hfw, hrw]
  simp


/-! ## Fact-package forms of the step lemmas

Each gives the successor state abstractly together with its reads at the
written addresses, the region record, and a frame condition. -/

theorem memAlloc_split_head_spec (H fuel : Nat) (s : State) (rIdx : Fin 4) (nb u b : Nat)
    (hu : u = (nb + H - 1) / H + 1)
    (hfree : (s.regions rIdx).free = some b)
    (hfit : u < (s.mem b).size)
    (hne : ((s.mem b).size - u) * H ≠ 0) :
    ∃ s', MemAlloc H (fuel + 1) s nb rIdx =
        some (some (b + ((s.mem b).size - u) * H + H), s') ∧
      s'.regions rIdx = { s.regions rIdx with
        memleft := (s.regions rIdx).memleft - (u : Int) } ∧
      s'.mem b = { s.mem b with size := (s.mem b).size - u, used := false, next := none } ∧
      s'.mem (b + ((s.mem b).size - u) * H) =
        { s.mem (b + ((s.mem b).size - u) * H) with size := u, used := true } ∧
      (∀ x, x ≠ b → x ≠ b + ((s.mem b).size - u) * H → s'.mem x = s.mem x) := by
  refine ⟨_, memAlloc_split_head H fuel s rIdx nb u b hu hfree hfit hne, ?_, ?_, ?_, ?_⟩
  · simp [updRegions_same]
  · have hb : b ≠ b + ((s.mem b).size - u) * H := by omega
    simp only
    rw [writeMem_other _ _ _ _ hb, writeMem_same]
  · simp only
    rw [writeMem_same]
  · intro x hxb hxb2
    simp only
    rw [writeMem_other _ _ _ _ hxb2, writeMem_other _ _ _ _ hxb]

theorem memFree_insert_after_spec (H fuel : Nat) (s : State) (pa c : Nat)
    (hused : (s.mem (pa - H)).used = true)
    (hfree : (s.regions (s.mem (pa - H)).region).free = some c)
    (hcf : c < pa - H)
    (hnc : c + (s.mem c).size * H ≠ pa - H)
    (hcnext : (s.mem c).next = none)
    (hfe : pa - H + (s.mem (pa - H)).size * H ≠ 0) :
    ∃ s', MemFree H (fuel + 2) s (some pa) = some s' ∧
      s'.regions ((s.mem (pa - H)).region) =
        { s.regions ((s.mem (pa - H)).region) with
            memleft := (s.regions ((s.mem (pa - H)).region)).memleft +
              ((s.mem (pa - H)).size : Int) } ∧
      s'.mem c = { s.mem c with next := some (pa - H) } ∧
      s'.mem (pa - H) = { s.mem (pa - H) with next := none, used := false } ∧
      (∀ x, x ≠ c → x ≠ pa - H → s'.mem x = s.mem x) := by
  refine ⟨_, memFree_insert_after H fuel s pa c hused hfree hcf hnc hcnext hfe, ?_, ?_, ?_, ?_⟩
  · simp [updRegions_same]
  · have hc : c ≠ pa - H := by omega
    simp only
    rw [writeMem_other _ _ _ _ hc, writeMem_same]
  · simp only
    rw [writeMem_same]
  · intro x hxc hxf
    simp only
    rw [writeMem_other _ _ _ _ hxf, writeMem_other _ _ _ _ hxc]

theorem memFree_merge_nested_spec (H fuel : Nat) (s : State) (pa c d : Nat)
    (hused : (s.mem (pa - H)).used = true)
    (hfree : (s.regions (s.mem (pa - H)).region).free = some c)
    (hcf : c < pa - H)
    (hcont : c + (s.mem c).size * H = pa - H)
    (hcnext : (s.mem c).next = some d)
    (hd : c + ((s.mem c).size + (s.mem (pa - H)).size) * H = d)
    (hdc : d ≠ c) :
    ∃ s', MemFree H (fuel + 1) s (some pa) = some s' ∧
      s'.regions ((s.mem (pa - H)).region) =
        { s.regions ((s.mem (pa - H)).region) with
            memleft := (s.regions ((s.mem (pa - H)).region)).memleft +
              ((s.mem (pa - H)).size : Int) } ∧
      s'.mem c = { s.mem c with
          size := (s.mem c).size + (s.mem (pa - H)).size + (s.mem d).size,
          next := (s.mem d).next, used := false } ∧
      (∀ x, x ≠ c → s'.mem x = s.mem x) := by
  refine ⟨_, memFree_merge_nested H fuel s pa c d hused hfree hcf hcont hcnext hd hdc,
    ?_, ?_, ?_⟩
  · simp [updRegions_same]
  · simp only
    rw [writeMem_same]
  · intro x hxc
    simp only
    rw [writeMem_other _ _ _ _ hxc, writeMem_other _ _ _ _ hxc]

theorem memFree_merge_simple_spec (H fuel : Nat) (s : State) (pa c : Nat)
    (hused : (s.mem (pa - H)).used = true)
    (hfree : (s.regions (s.mem (pa - H)).region).free = some c)
    (hcf : c < pa - H)
    (hcont : c + (s.mem c).size * H = pa - H)
    (hnon : (s.mem c).next ≠
      some (c + ((s.mem c).size + (s.mem (pa - H)).size) * H)) :
    ∃ s', MemFree H (fuel + 1) s (some pa) = some s' ∧
      s'.regions ((s.mem (pa - H)).region) =
        { s.regions ((s.mem (pa - H)).region) with
            memleft := (s.regions ((s.mem (pa - H)).region)).memleft +
              ((s.mem (pa - H)).size : Int) } ∧
      s'.mem c = { s.mem c with size := (s.mem c).size + (s.mem (pa - H)).size } ∧
      (∀ x, x ≠ c → s'.mem x = s.mem x) := by
  refine ⟨_, memFree_merge_simple H fuel s pa c hused hfree hcf hcont hnon, ?_, ?_, ?_⟩
  · simp [updRegions_same]
  · simp only
    rw [writeMem_same]
  · intro x hxc
    simp only
    rw [writeMem_other _ _ _ _ hxc]

/-- C9: the round-trip scenario.  From `Init` on a fresh (zeroed) region of
`S = (N+1)*H` bytes, three `Allocate(10)` calls produce three used blocks at
ascending addresses `(N-3u)H < (N-2u)H < (N-u)H`, each of `u = ceil(10/H)+1`
units (successive allocations are carved from the top, so allocation order
is descending); freeing the second, then the third, then the first leaves
exactly one free block of `N` units spanning the whole region, with
`memleft = N`, reported `freeBytes = S - H` and `usedBlocks = 0`.  The
hypotheses are the scenario's implicit constraints: `H` divides `S` and the
region is large enough that all three allocations split (an exact-fit third
allocation would instead expose the C1 defect). -/
theorem C9_round_trip (H N u S : Nat) (hH : 0 < H)
    (hu : u = (10 + H - 1) / H + 1)
    (hS : S = (N + 1) * H)
    (hN : 3 * u + 1 ≤ N) :
    ∃ s1 s2 s3 s4 s5 s6 : State,
      MemAlloc H 2 (MemInit H state0 0 S) 10 0 =
        some (some ((N - u) * H + H), s1) ∧
      MemAlloc H 2 s1 10 0 = some (some ((N - 2 * u) * H + H), s2) ∧
      MemAlloc H 2 s2 10 0 = some (some ((N - 3 * u) * H + H), s3) ∧
      ((N - 3 * u) * H < (N - 2 * u) * H ∧ (N - 2 * u) * H < (N - u) * H) ∧
      (s3.mem ((N - u) * H)).used = true ∧ (s3.mem ((N - u) * H)).size = u ∧
      (s3.mem ((N - 2 * u) * H)).used = true ∧ (s3.mem ((N - 2 * u) * H)).size = u ∧
      (s3.mem ((N - 3 * u) * H)).used = true ∧ (s3.mem ((N - 3 * u) * H)).size = u ∧
      MemFree H 4 s3 (some ((N - 2 * u) * H + H)) = some s4 ∧
      MemFree H 4 s4 (some ((N - 3 * u) * H + H)) = some s5 ∧
      MemFree H 4 s5 (some ((N - u) * H + H)) = some s6 ∧
      (s6.regions 0).free = some 0 ∧
      (s6.mem 0).size = N ∧ (s6.mem 0).used = false ∧ (s6.mem 0).next = none ∧
      freeChain s6 2 ((s6.regions 0).free) = some [0] ∧
      (s6.regions 0).memleft = (N : Int) ∧
      (MemStats H 2 s6 0).map (fun st => (st.freebytes, st.usedblocks)) =
        some (S - H, 0) := by
  -- arithmetic toolkit
  have hu2 : 2 ≤ u := by
    have h1 : 1 ≤ (10 + H - 1) / H := (Nat.one_le_div_iff hH).mpr (by omega)
    omega
  have hYH : 2 * H ≤ u * H := Nat.mul_le_mul_right H hu2
  have hXH : 3 * (u * H) + H ≤ N * H := by
    have h := Nat.mul_le_mul_right H hN
    calc 3 * (u * H) + H = (3 * u + 1) * H := by ring
    _ ≤ N * H := h
  have e1 : (N - u) * H = N * H - u * H := Nat.sub_mul N u H
  have e2 : (N - 2 * u) * H = N * H - 2 * (u * H) := by
    rw [Nat.sub_mul]; ring_nf
  have e3 : (N - 3 * u) * H = N * H - 3 * (u * H) := by
    rw [Nat.sub_mul]; ring_nf
  have hdiv : S / H = N + 1 := by
    rw [hS]; exact Nat.mul_div_cancel (N + 1) hH
  -- the initial state
  have hr0 : (MemInit H state0 0 S).regions 0 =
      { start := some 0, endA := 0 + S, free := some 0, memleft := (N : Int) } := by
    simp only [MemInit, MemAddRegion, state0, hdiv]
    simp [updRegions_same]
  have h0m0 : (MemInit H state0 0 S).mem 0 =
      { used := false, region := 0, size := N, next := none } := by
    simp only [MemInit, MemAddRegion, state0, hdiv]
    simp [writeMem_same]
    rfl
  have h0fr : ∀ x : Nat, x ≠ 0 → (MemInit H state0 0 S).mem x = hdr0 := by
    intro x hx
    simp only [MemInit, MemAddRegion, state0, hdiv]
    simp only [Option.isSome_none, Bool.false_eq_true, if_false]
    rw [writeMem_other _ _ _ _ hx]
  generalize hgen : MemInit H state0 0 S = s0
  rw [hgen] at hr0 h0m0 h0fr
  simp only [zero_add] at hr0
  -- useful address facts
  have hA1ne0 : (N - u) * H ≠ 0 := by rw [e1]; omega
  have hA2ne0 : (N - 2 * u) * H ≠ 0 := by rw [e2]; omega
  have hA3ne0 : (N - 3 * u) * H ≠ 0 := by rw [e3]; omega
  have hA2neA1 : (N - 2 * u) * H ≠ (N - u) * H := by rw [e1, e2]; omega
  have hA3neA1 : (N - 3 * u) * H ≠ (N - u) * H := by rw [e1, e3]; omega
  have hA3neA2 : (N - 3 * u) * H ≠ (N - 2 * u) * H := by rw [e2, e3]; omega
  have hA1neA2 : (N - u) * H ≠ (N - 2 * u) * H := fun h => hA2neA1 h.symm
  have hA1neA3 : (N - u) * H ≠ (N - 3 * u) * H := fun h => hA3neA1 h.symm
  have hA2neA3 : (N - 2 * u) * H ≠ (N - 3 * u) * H := fun h => hA3neA2 h.symm
  -- step 1: first allocation, split of the single free node
  obtain ⟨s1, hstep1, h1reg, h1m0, h1mA1, h1fr⟩ :=
    memAlloc_split_head_spec H 1 s0 0 10 u 0 hu
      (by rw [hr0])
      (by rw [h0m0]; simp only; omega)
      (by rw [h0m0]; simp only; rw [e1]; omega)
  simp only [h0m0, zero_add] at hstep1 h1reg h1m0 h1mA1 h1fr
  simp only [hr0] at h1reg
  rw [h0fr _ hA1ne0] at h1mA1
  simp only [hdr0] at h1mA1
  -- step 2: second allocation
  obtain ⟨s2, hstep2, h2reg, h2m0, h2mA2, h2fr⟩ :=
    memAlloc_split_head_spec H 1 s1 0 10 u 0 hu
      (by rw [h1reg])
      (by rw [h1m0]; simp only; omega)
      (by rw [h1m0]; simp only
          have euu : N - u - u = N - 2 * u := by omega
          rw [euu, e2]; omega)
  have euu : N - u - u = N - 2 * u := by omega
  simp only [h1m0, zero_add, euu] at hstep2 h2reg h2m0 h2mA2 h2fr
  simp only [h1reg] at h2reg
  rw [h1fr _ hA2ne0 hA2neA1, h0fr _ hA2ne0] at h2mA2
  simp only [hdr0] at h2mA2
  -- step 3: third allocation
  obtain ⟨s3, hstep3, h3reg, h3m0, h3mA3, h3fr⟩ :=
    memAlloc_split_head_spec H 1 s2 0 10 u 0 hu
      (by rw [h2reg])
      (by rw [h2m0]; simp only; omega)
      (by rw [h2m0]; simp only
          have euuu : N - 2 * u - u = N - 3 * u := by omega
          rw [euuu, e3]; omega)
  have euuu : N - 2 * u - u = N - 3 * u := by omega
  simp only [h2m0, zero_add, euuu] at hstep3 h3reg h3m0 h3mA3 h3fr
  simp only [h2reg] at h3reg
  rw [h2fr _ hA3ne0 hA3neA2, h1fr _ hA3ne0 hA3neA1, h0fr _ hA3ne0] at h3mA3
  simp only [hdr0] at h3mA3
  -- reads of s3 at the three used blocks
  have hs3A1 : s3.mem ((N - u) * H) =
      { used := true, region := 0, size := u, next := none } := by
    rw [h3fr _ hA1ne0 hA1neA3, h2fr _ hA1ne0 hA1neA2, h1mA1]
  have hs3A2 : s3.mem ((N - 2 * u) * H) =
      { used := true, region := 0, size := u, next := none } := by
    rw [h3fr _ hA2ne0 hA2neA3, h2mA2]
  -- step 4: free the second allocation (insert after the head node)
  have hps2 : (N - 2 * u) * H + H - H = (N - 2 * u) * H := by omega
  obtain ⟨s4, hstep4, h4reg, h4m0, h4mA2, h4fr⟩ :=
    memFree_insert_after_spec H 2 s3 ((N - 2 * u) * H + H) 0
      (by rw [hps2, hs3A2])
      (by rw [hps2, hs3A2]; simp only; rw [h3reg])
      (by rw [hps2]; omega)
      (by rw [hps2, h3m0]; simp only; rw [e2, e3]; omega)
      (by rw [h3m0])
      (by rw [hps2, hs3A2]; simp only
          have : (N - 2 * u) * H + u * H = (N - u) * H := by rw [e1, e2]; omega
          rw [this]; exact hA1ne0)
  simp only [hps2, hs3A2] at hstep4 h4reg h4m0 h4mA2 h4fr
  simp only [h3reg] at h4reg
  simp only [h3m0] at h4m0
  -- step 5: free the third allocation (merge into head, nested merge)
  have hps3 : (N - 3 * u) * H + H - H = (N - 3 * u) * H := by omega
  have hs4A3 : s4.mem ((N - 3 * u) * H) =
      { used := true, region := 0, size := u, next := none } := by
    rw [h4fr _ hA3ne0 hA3neA2, h3mA3]
  obtain ⟨s5, hstep5, h5reg, h5m0, h5fr⟩ :=
    memFree_merge_nested_spec H 3 s4 ((N - 3 * u) * H + H) 0 ((N - 2 * u) * H)
      (by rw [hps3, hs4A3])
      (by rw [hps3, hs4A3]; simp only; rw [h4reg])
      (by rw [hps3]; rw [e3] at hA3ne0 ⊢; omega)
      (by rw [hps3, h4m0]; simp only; rw [zero_add])
      (by rw [h4m0])
      (by rw [hps3, h4m0, hs4A3]; simp only
          have : N - 3 * u + u = N - 2 * u := by omega
          rw [zero_add, this])
      hA2ne0
  simp only [hps3, hs4A3] at hstep5 h5reg h5m0 h5fr
  simp only [h4reg] at h5reg
  simp only [h4m0, h4mA2] at h5m0
  have es5 : N - 3 * u + u + u = N - u := by omega
  simp only [es5] at h5m0
  -- step 6: free the first allocation (merge into the single free node)
  have hps1 : (N - u) * H + H - H = (N - u) * H := by omega
  have hs5A1 : s5.mem ((N - u) * H) =
      { used := true, region := 0, size := u, next := none } := by
    rw [h5fr _ hA1ne0, h4fr _ hA1ne0 hA1neA2, hs3A1]
  obtain ⟨s6, hstep6, h6reg, h6m0, h6fr⟩ :=
    memFree_merge_simple_spec H 3 s5 ((N - u) * H + H) 0
      (by rw [hps1, hs5A1])
      (by rw [hps1, hs5A1]; simp only; rw [h5reg])
      (by rw [hps1]; rw [e1] at hA1ne0 ⊢; omega)
      (by rw [hps1, h5m0]; simp only; rw [zero_add])
      (by rw [h5m0]; simp)
  simp only [hps1, hs5A1] at hstep6 h6reg h6m0 h6fr
  simp only [h5reg] at h6reg
  simp only [h5m0] at h6m0
  have es6 : N - u + u = N := by omega
  simp only [es6] at h6m0
  -- final facts
  have hfree6 : (s6.regions 0).free = some 0 := by rw [h6reg]
  have hstart6 : (s6.regions 0).start = some 0 := by rw [h6reg]
  have hend6 : (s6.regions 0).endA = S := by rw [h6reg]
  have hml6 : (s6.regions 0).memleft = (N : Int) := by rw [h6reg]; simp only; ring
  have hSNH : S = N * H + H := by rw [hS, Nat.succ_mul]
  have hNHne : ∀ a : Nat, a * H ≠ N * H → (N * H ≠ a * H) := fun a h => fun hh => h hh.symm
  have hNHne0 : (N * H : Nat) ≠ 0 := by omega
  have hNHneA1 : (N * H : Nat) ≠ (N - u) * H := by rw [e1]; omega
  have hNHneA2 : (N * H : Nat) ≠ (N - 2 * u) * H := by rw [e2]; omega
  have hNHneA3 : (N * H : Nat) ≠ (N - 3 * u) * H := by rw [e3]; omega
  have hzero6 : (s6.mem (N * H)).size = 0 := by
    rw [h6fr _ hNHne0, h5fr _ hNHne0, h4fr _ hNHne0 hNHneA2, h3fr _ hNHne0 hNHneA3,
      h2fr _ hNHne0 hNHneA2, h1fr _ hNHne0 hNHneA1, h0fr _ hNHne0]
    rfl
  have hstats := memStats_single_free H 2 s6 0 0 N (by omega)
    hstart6 hfree6 (by rw [h6m0]) (by omega) (by rw [h6m0]) (by rw [h6m0])
    (by rw [hend6]; rw [hSNH]; omega)
    (by rw [zero_add]; exact hzero6)
  have hSH : S - H = N * H := by rw [hSNH]; omega
  -- assemble
  refine ⟨s1, s2, s3, s4, s5, s6, hstep1, hstep2, hstep3,
    ⟨by rw [e2, e3]; omega, by rw [e1, e2]; omega⟩,
    by rw [hs3A1], by rw [hs3A1], by rw [hs3A2], by rw [hs3A2],
    by rw [h3mA3], by rw [h3mA3],
    hstep4, hstep5, hstep6, hfree6,
    by rw [h6m0], by rw [h6m0], by rw [h6m0],
    ?_, hml6, ?_⟩
  · rw [hfree6]
    simp [freeChain, h6m0]
  · rw [hSH]
    exact hstats

/-- Witness for `C9_round_trip` at `H = 8`, `N = 19`, `u = 3`, `S = 160`
(the repository's own test configuration). -/
theorem C9_round_trip_witness :
    (0 < 8 ∧ 3 = (10 + 8 - 1) / 8 + 1 ∧ 160 = (19 + 1) * 8 ∧ 3 * 3 + 1 ≤ 19) ∧
    (∃ s1 s2 s3 s4 s5 s6 : State,
      MemAlloc 8 2 (MemInit 8 state0 0 160) 10 0 =
        some (some ((19 - 3) * 8 + 8), s1) ∧
      MemAlloc 8 2 s1 10 0 = some (some ((19 - 2 * 3) * 8 + 8), s2) ∧
      MemAlloc 8 2 s2 10 0 = some (some ((19 - 3 * 3) * 8 + 8), s3) ∧
      ((19 - 3 * 3) * 8 < (19 - 2 * 3) * 8 ∧ (19 - 2 * 3) * 8 < (19 - 3) * 8) ∧
      (s3.mem ((19 - 3) * 8)).used = true ∧ (s3.mem ((19 - 3) * 8)).size = 3 ∧
      (s3.mem ((19 - 2 * 3) * 8)).used = true ∧ (s3.mem ((19 - 2 * 3) * 8)).size = 3 ∧
      (s3.mem ((19 - 3 * 3) * 8)).used = true ∧ (s3.mem ((19 - 3 * 3) * 8)).size = 3 ∧
      MemFree 8 4 s3 (some ((19 - 2 * 3) * 8 + 8)) = some s4 ∧
      MemFree 8 4 s4 (some ((19 - 3 * 3) * 8 + 8)) = some s5 ∧
      MemFree 8 4 s5 (some ((19 - 3) * 8 + 8)) = some s6 ∧
      (s6.regions 0).free = some 0 ∧
      (s6.mem 0).size = 19 ∧ (s6.mem 0).used = false ∧ (s6.mem 0).next = none ∧
      freeChain s6 2 ((s6.regions 0).free) = some [0] ∧
      (s6.regions 0).memleft = (19 : Int) ∧
      (MemStats 8 2 s6 0).map (fun st => (st.freebytes, st.usedblocks)) =
        some (160 - 8, 0)) :=
  ⟨⟨by decide, by decide, by decide, by decide⟩,
   C9_round_trip 8 19 3 160 (by decide) (by decide) (by decide) (by decide)⟩

/-! ## Infrastructure for the free-list invariant (C5) -/

/-- `chainSeg s b l nb`: starting from link `b`, following `next` pointers
visits exactly the nodes of `l` and ends at link `nb`. -/
def chainSeg (s : State) : Option Nat → List Nat → Option Nat → Prop
  | b, [], nb => b = nb
  | b, a :: t, nb => b = some a ∧ chainSeg s ((s.mem a).next) t nb

/-- Strict separation of adjacent free-list entries, as a chain relation:
each node ends strictly below the next node's address. -/
def gapsP (H : Nat) (s : State) (l : List Nat) : Prop :=
  List.Chain' (fun a b => a + (s.mem a).size * H < b) l

theorem chainSeg_append (s : State) :
    ∀ (l1 l2 : List Nat) (b m nb : Option Nat),
      chainSeg s b l1 m → chainSeg s m l2 nb → chainSeg s b (l1 ++ l2) nb := by
  intro l1
  induction l1 with
  | nil => intro l2 b m nb h1 h2; cases h1; exact h2
  | cons a t ih =>
    intro l2 b m nb h1 h2
    obtain ⟨hb, ht⟩ := h1
    exact ⟨hb, ih l2 _ m nb ht h2⟩

theorem chainSeg_append_inv (s : State) :
    ∀ (l1 l2 : List Nat) (bb nb : Option Nat),
      chainSeg s bb (l1 ++ l2) nb →
      ∃ m, chainSeg s bb l1 m ∧ chainSeg s m l2 nb := by
  intro l1
  induction l1 with
  | nil => intro l2 bb nb h; exact ⟨bb, rfl, h⟩
  | cons a t ih =>
    intro l2 bb nb h
    obtain ⟨hb, ht⟩ := h
    obtain ⟨m, h1, h2⟩ := ih l2 _ nb ht
    exact ⟨m, ⟨hb, h1⟩, h2⟩

theorem chainSeg_of_chain (s : State) :
    ∀ (l : List Nat) (cf : Nat) (b : Option Nat),
      freeChain s cf b = some l → chainSeg s b l none := by
  intro l
  induction l with
  | nil =>
    intro cf b h
    cases b with
    | none => exact rfl
    | some a =>
      obtain ⟨_, _, _, hl, _⟩ := freeChain_some_inv s cf a _ h
      exact List.noConfusion hl
  | cons a t ih =>
    intro cf b h
    cases b with
    | none =>
      rw [freeChain_none_eq] at h
      injection h with h
      exact List.noConfusion h
    | some x =>
      obtain ⟨cf', l', _, hl, hch⟩ := freeChain_some_inv s cf x _ h
      injection hl with h1 h2
      subst h1; subst h2
      exact ⟨rfl, ih cf' _ hch⟩

theorem chain_of_chainSeg (s : State) :
    ∀ (l : List Nat) (b : Option Nat),
      chainSeg s b l none → freeChain s (l.length + 1) b = some l := by
  intro l
  induction l with
  | nil => intro b h; cases h; rfl
  | cons a t ih =>
    intro b h
    obtain ⟨hb, ht⟩ := h
    subst hb
    have := ih _ ht
    simp only [freeChain, List.length_cons]
    rw [this]

/-- Chains only read the headers of their own nodes, so they transfer to
any state agreeing there. -/
theorem chainSeg_congr (s s' : State) :
    ∀ (l : List Nat) (b nb : Option Nat),
      (∀ x ∈ l, s'.mem x = s.mem x) →
      chainSeg s b l nb → chainSeg s' b l nb := by
  intro l
  induction l with
  | nil => intro b nb _ h; exact h
  | cons a t ih =>
    intro b nb hagree h
    obtain ⟨hb, ht⟩ := h
    refine ⟨hb, ?_⟩
    rw [hagree a (List.mem_cons_self a t)]
    exact ih _ _ (fun x hx => hagree x (List.mem_cons_of_mem _ hx)) ht

theorem gapsP_congr (H : Nat) (s s' : State) :
    ∀ (l : List Nat), (∀ x ∈ l, (s'.mem x).size = (s.mem x).size) →
      gapsP H s l → gapsP H s' l := by
  intro l
  induction l with
  | nil => intro _ _; exact List.chain'_nil
  | cons a t ih =>
    intro hagree h
    cases t with
    | nil => exact List.chain'_singleton a
    | cons b t2 =>
      simp only [gapsP] at h ⊢
      rw [List.chain'_cons] at h ⊢
      obtain ⟨hab, ht⟩ := h
      refine ⟨?_, ih (fun x hx => hagree x (List.mem_cons_of_mem _ hx)) ht⟩
      rw [hagree a (List.mem_cons_self _ _)]
      exact hab

theorem nodesFreeOK_congr (s s' : State) (l : List Nat)
    (hagree : ∀ x ∈ l, (s'.mem x).used = (s.mem x).used)
    (h : nodesFreeOK s l = true) : nodesFreeOK s' l = true := by
  simp only [nodesFreeOK, List.all_eq_true] at h ⊢
  intro x hx
  rw [hagree x hx]
  exact h x hx

theorem gapsP_lt (H : Nat) (s : State) :
    ∀ (l1 l2 : List Nat), gapsP H s (l1 ++ l2) →
      ∀ x ∈ l1, ∀ y ∈ l2, x < y := by
  intro l1 l2 h
  have hlt : List.Chain' (· < ·) (l1 ++ l2) :=
    List.Chain'.imp (fun a b hab => by omega) h
  have hp := List.chain'_iff_pairwise.mp hlt
  exact (List.pairwise_append.mp hp).2.2

theorem ascOK_of_gapsP (H : Nat) (s : State) :
    ∀ (l : List Nat), gapsP H s l → ascOK l = true := by
  intro l
  induction l with
  | nil => intro _; rfl
  | cons a t ih =>
    intro h
    cases t with
    | nil => rfl
    | cons b t2 =>
      simp only [gapsP] at h
      rw [List.chain'_cons] at h
      obtain ⟨hab, ht⟩ := h
      simp only [ascOK, Bool.and_eq_true, decide_eq_true_eq]
      exact ⟨by omega, ih ht⟩

theorem noMergeOK_of_gapsP (H : Nat) (s : State) :
    ∀ (l : List Nat), gapsP H s l → noMergeOK H s l = true := by
  intro l
  induction l with
  | nil => intro _; rfl
  | cons a t ih =>
    intro h
    cases t with
    | nil => rfl
    | cons b t2 =>
      simp only [gapsP] at h
      rw [List.chain'_cons] at h
      obtain ⟨hab, ht⟩ := h
      simp only [noMergeOK, Bool.and_eq_true, decide_eq_true_eq]
      exact ⟨by omega, ih ht⟩

/-! ## Loop-step characterisations (used for the invariant proof) -/

theorem memAllocLoop_step (H : Nat) (s : State) (rIdx : Fin 4) (nelems fuel : Nat)
    (prev : Option Nat) (b : Nat) (h : ¬ nelems ≤ (s.mem b).size) :
    memAllocLoop H s rIdx nelems (fuel + 1) prev (some b) =
      memAllocLoop H s rIdx nelems fuel prev ((s.mem b).next) := by
  simp only [memAllocLoop]
  rw [if_neg h]

theorem memAllocLoop_split_eq (H : Nat) (s : State) (rIdx : Fin 4)
    (nelems fuel : Nat) (prev : Option Nat) (b : Nat)
    (h2 : nelems < (s.mem b).size)
    (hne : b ≠ b + ((s.mem b).size - nelems) * H) :
    memAllocLoop H s rIdx nelems (fuel + 1) prev (some b) =
      some (some (b + ((s.mem b).size - nelems) * H + H),
        { mem := writeMem
            (writeMem s.mem b
              { s.mem b with size := (s.mem b).size - nelems, used := false, next := none })
            (b + ((s.mem b).size - nelems) * H)
            { s.mem (b + ((s.mem b).size - nelems) * H) with size := nelems, used := true },
          regions := updRegions s.regions rIdx
            { s.regions rIdx with
                memleft := (s.regions rIdx).memleft - (nelems : Int) } }) := by
  simp only [memAllocLoop]
  rw [if_pos (le_of_lt h2), if_pos h2]
  have hj : b + ((s.mem b).size - nelems) * H ≠ b := fun h => hne h.symm
  rw [writeMem_other _ _ _ _ hj]

theorem memAllocLoop_split_facts (H : Nat) (s : State) (rIdx : Fin 4)
    (nelems fuel : Nat) (prev : Option Nat) (b : Nat)
    (h2 : nelems < (s.mem b).size)
    (hne : b ≠ b + ((s.mem b).size - nelems) * H) :
    ∃ s', memAllocLoop H s rIdx nelems (fuel + 1) prev (some b) =
        some (some (b + ((s.mem b).size - nelems) * H + H), s') ∧
      s'.regions rIdx = { s.regions rIdx with
        memleft := (s.regions rIdx).memleft - (nelems : Int) } ∧
      s'.mem b = { s.mem b with size := (s.mem b).size - nelems, used := false, next := none } ∧
      s'.mem (b + ((s.mem b).size - nelems) * H) =
        { s.mem (b + ((s.mem b).size - nelems) * H) with size := nelems, used := true } ∧
      (∀ x, x ≠ b → x ≠ b + ((s.mem b).size - nelems) * H → s'.mem x = s.mem x) := by
  refine ⟨_, memAllocLoop_split_eq H s rIdx nelems fuel prev b h2 hne, ?_, ?_, ?_, ?_⟩
  · simp only
    rw [updRegions_same]
  · have hj : b ≠ b + ((s.mem b).size - nelems) * H := hne
    simp only
    rw [writeMem_other _ _ _ _ hj, writeMem_same]
  · simp only
    rw [writeMem_same]
  · intro x hxb hxb2
    simp only
    rw [writeMem_other _ _ _ _ hxb2, writeMem_other _ _ _ _ hxb]

theorem memAllocLoop_exact_head_eq (H : Nat) (s : State) (rIdx : Fin 4)
    (nelems fuel : Nat) (b : Nat)
    (h1 : nelems ≤ (s.mem b).size) (h2 : ¬ nelems < (s.mem b).size) :
    memAllocLoop H s rIdx nelems (fuel + 1) none (some b) =
      some (some (b + H),
        { mem := s.mem,
          regions := updRegions
            (updRegions s.regions rIdx { s.regions rIdx with free := (s.mem b).next })
            rIdx
            { updRegions s.regions rIdx { s.regions rIdx with free := (s.mem b).next } rIdx with
                memleft := (updRegions s.regions rIdx
                  { s.regions rIdx with free := (s.mem b).next } rIdx).memleft -
                  (nelems : Int) } }) := by
  simp only [memAllocLoop]
  rw [if_pos h1, if_neg h2]

theorem memAllocLoop_exact_head_facts (H : Nat) (s : State) (rIdx : Fin 4)
    (nelems fuel : Nat) (b : Nat)
    (h1 : nelems ≤ (s.mem b).size) (h2 : ¬ nelems < (s.mem b).size) :
    ∃ s', memAllocLoop H s rIdx nelems (fuel + 1) none (some b) =
        some (some (b + H), s') ∧
      s'.mem = s.mem ∧
      s'.regions rIdx = { s.regions rIdx with
          free := (s.mem b).next,
          memleft := (s.regions rIdx).memleft - (nelems : Int) } := by
  refine ⟨_, memAllocLoop_exact_head_eq H s rIdx nelems fuel b h1 h2, rfl, ?_⟩
  simp only
  rw [updRegions_same, updRegions_same]

/-- The `prev->next` unlink branch of the exact fit.  Since the C loop
never advances `prev`, this branch is unreachable from `MemAlloc` (which
enters the loop with `prev = NULL`); it is characterised here as written. -/
theorem memAllocLoop_exact_mid_eq (H : Nat) (s : State) (rIdx : Fin 4)
    (nelems fuel : Nat) (p b : Nat)
    (h1 : nelems ≤ (s.mem b).size) (h2 : ¬ nelems < (s.mem b).size) :
    memAllocLoop H s rIdx nelems (fuel + 1) (some p) (some b) =
      some (some (b + H),
        { mem := writeMem s.mem p { s.mem p with next := (s.mem b).next },
          regions := updRegions s.regions rIdx
            { s.regions rIdx with
                memleft := (s.regions rIdx).memleft - (nelems : Int) } }) := by
  simp only [memAllocLoop]
  rw [if_pos h1, if_neg h2]

theorem memAllocLoop_exact_mid_facts (H : Nat) (s : State) (rIdx : Fin 4)
    (nelems fuel : Nat) (p b : Nat)
    (h1 : nelems ≤ (s.mem b).size) (h2 : ¬ nelems < (s.mem b).size) :
    ∃ s', memAllocLoop H s rIdx nelems (fuel + 1) (some p) (some b) =
        some (some (b + H), s') ∧
      s'.mem p = { s.mem p with next := (s.mem b).next } ∧
      (∀ x, x ≠ p → s'.mem x = s.mem x) ∧
      s'.regions rIdx = { s.regions rIdx with
        memleft := (s.regions rIdx).memleft - (nelems : Int) } := by
  refine ⟨_, memAllocLoop_exact_mid_eq H s rIdx nelems fuel p b h1 h2, ?_, ?_, ?_⟩
  · simp only
    rw [writeMem_same]
  · intro x hx
    simp only
    rw [writeMem_other _ _ _ _ hx]
  · simp only
    rw [updRegions_same]

theorem memFreeLoop_step (H : Nat) (s : State) (f fuel : Nat)
    (prev : Option Nat) (b : Nat)
    (hbf : b < f) (hnc : ¬ b + (s.mem b).size * H = f) :
    memFreeLoop H s f (fuel + 1) prev (some b) =
      memFreeLoop H s f fuel (some b) ((s.mem b).next) := by
  simp only [memFreeLoop]
  rw [if_pos hbf, if_neg hnc]

theorem memFreeLoop_exit (H : Nat) (s : State) (f fuel : Nat)
    (prev : Option Nat) (b : Nat) (hbf : ¬ b < f) :
    memFreeLoop H s f (fuel + 1) prev (some b) =
      memFreeAfterLoop H s f prev (some b) := by
  simp only [memFreeLoop]
  rw [if_neg hbf]

theorem memFreeLoop_exit_none (H : Nat) (s : State) (f fuel : Nat)
    (prev : Option Nat) :
    memFreeLoop H s f (fuel + 1) prev none =
      memFreeAfterLoop H s f prev none := by
  simp only [memFreeLoop]

theorem memFreeLoop_merge_simple_eq (H : Nat) (s : State) (f fuel : Nat)
    (prev : Option Nat) (b : Nat)
    (hbf : b < f) (hcont : b + (s.mem b).size * H = f)
    (hnon : (s.mem b).next ≠ some (b + ((s.mem b).size + (s.mem f).size) * H)) :
    memFreeLoop H s f (fuel + 1) prev (some b) =
      some
        { mem := writeMem s.mem b
            { s.mem b with size := (s.mem b).size + (s.mem f).size },
          regions := s.regions } := by
  simp only [memFreeLoop]
  rw [if_pos hbf, if_pos hcont, if_neg hnon]

theorem memFreeLoop_merge_simple_facts (H : Nat) (s : State) (f fuel : Nat)
    (prev : Option Nat) (b : Nat)
    (hbf : b < f) (hcont : b + (s.mem b).size * H = f)
    (hnon : (s.mem b).next ≠ some (b + ((s.mem b).size + (s.mem f).size) * H)) :
    ∃ s', memFreeLoop H s f (fuel + 1) prev (some b) = some s' ∧
      s'.regions = s.regions ∧
      s'.mem b = { s.mem b with size := (s.mem b).size + (s.mem f).size } ∧
      (∀ x, x ≠ b → s'.mem x = s.mem x) := by
  refine ⟨_, memFreeLoop_merge_simple_eq H s f fuel prev b hbf hcont hnon, rfl, ?_, ?_⟩
  · simp only
    rw [writeMem_same]
  · intro x hx
    simp only
    rw [writeMem_other _ _ _ _ hx]

theorem memFreeLoop_merge_nested_eq (H : Nat) (s : State) (f fuel : Nat)
    (prev : Option Nat) (b d : Nat)
    (hbf : b < f) (hcont : b + (s.mem b).size * H = f)
    (hnx : (s.mem b).next = some d)
    (hd : b + ((s.mem b).size + (s.mem f).size) * H = d)
    (hdb : d ≠ b) :
    memFreeLoop H s f (fuel + 1) prev (some b) =
      some
        { mem := writeMem
            (writeMem s.mem b { s.mem b with size := (s.mem b).size + (s.mem f).size })
            b
            { s.mem b with
                size := (s.mem b).size + (s.mem f).size + (s.mem d).size,
                next := (s.mem d).next, used := false },
          regions := s.regions } := by
  simp only [memFreeLoop]
  rw [if_pos hbf, if_pos hcont, hnx, hd, if_pos rfl]
  rw [writeMem_other _ _ _ _ hdb]

theorem memFreeLoop_merge_nested_facts (H : Nat) (s : State) (f fuel : Nat)
    (prev : Option Nat) (b d : Nat)
    (hbf : b < f) (hcont : b + (s.mem b).size * H = f)
    (hnx : (s.mem b).next = some d)
    (hd : b + ((s.mem b).size + (s.mem f).size) * H = d)
    (hdb : d ≠ b) :
    ∃ s', memFreeLoop H s f (fuel + 1) prev (some b) = some s' ∧
      s'.regions = s.regions ∧
      s'.mem b = { s.mem b with
          size := (s.mem b).size + (s.mem f).size + (s.mem d).size,
          next := (s.mem d).next, used := false } ∧
      (∀ x, x ≠ b → s'.mem x = s.mem x) := by
  refine ⟨_, memFreeLoop_merge_nested_eq H s f fuel prev b d hbf hcont hnx hd hdb,
    rfl, ?_, ?_⟩
  · simp only
    rw [writeMem_same]
  · intro x hx
    simp only
    rw [writeMem_other _ _ _ _ hx, writeMem_other _ _ _ _ hx]

theorem memFreeAfterLoop_merge_eq (H : Nat) (s : State) (f p bk : Nat)
    (hpf : p ≠ f) (hbkp : bk ≠ p)
    (hme : f + (s.mem f).size * H = bk) :
    memFreeAfterLoop H s f (some p) (some bk) =
      some
        { mem := writeMem
            (writeMem s.mem p { s.mem p with next := some f })
            f
            { s.mem f with
                size := (s.mem f).size + (s.mem bk).size,
                next := (s.mem bk).next, used := false },
          regions := s.regions } := by
  have hfp : f ≠ p := fun h => hpf h.symm
  simp only [memFreeAfterLoop]
  rw [writeMem_other _ _ _ _ hfp, writeMem_other _ _ _ _ hbkp]
  rw [if_pos hme]

theorem memFreeAfterLoop_merge_facts (H : Nat) (s : State) (f p bk : Nat)
    (hpf : p ≠ f) (hbkp : bk ≠ p)
    (hme : f + (s.mem f).size * H = bk) :
    ∃ s', memFreeAfterLoop H s f (some p) (some bk) = some s' ∧
      s'.regions = s.regions ∧
      s'.mem p = { s.mem p with next := some f } ∧
      s'.mem f = { s.mem f with
          size := (s.mem f).size + (s.mem bk).size,
          next := (s.mem bk).next, used := false } ∧
      (∀ x, x ≠ p → x ≠ f → s'.mem x = s.mem x) := by
  refine ⟨_, memFreeAfterLoop_merge_eq H s f p bk hpf hbkp hme, rfl, ?_, ?_, ?_⟩
  · simp only
    rw [writeMem_other _ _ _ _ hpf, writeMem_same]
  · simp only
    rw [writeMem_same]
  · intro x hxp hxf
    simp only
    rw [writeMem_other _ _ _ _ hxf, writeMem_other _ _ _ _ hxp]

theorem memFreeAfterLoop_plain_eq (H : Nat) (s : State) (f p bk : Nat)
    (hpf : p ≠ f)
    (hme : f + (s.mem f).size * H ≠ bk) :
    memFreeAfterLoop H s f (some p) (some bk) =
      some
        { mem := writeMem
            (writeMem s.mem p { s.mem p with next := some f })
            f
            { s.mem f with next := some bk, used := false },
          regions := s.regions } := by
  have hfp : f ≠ p := fun h => hpf h.symm
  simp only [memFreeAfterLoop]
  rw [writeMem_other _ _ _ _ hfp]
  rw [if_neg hme]

theorem memFreeAfterLoop_plain_facts (H : Nat) (s : State) (f p bk : Nat)
    (hpf : p ≠ f)
    (hme : f + (s.mem f).size * H ≠ bk) :
    ∃ s', memFreeAfterLoop H s f (some p) (some bk) = some s' ∧
      s'.regions = s.regions ∧
      s'.mem p = { s.mem p with next := some f } ∧
      s'.mem f = { s.mem f with next := some bk, used := false } ∧
      (∀ x, x ≠ p → x ≠ f → s'.mem x = s.mem x) := by
  refine ⟨_, memFreeAfterLoop_plain_eq H s f p bk hpf hme, rfl, ?_, ?_, ?_⟩
  · simp only
    rw [writeMem_other _ _ _ _ hpf, writeMem_same]
  · simp only
    rw [writeMem_same]
  · intro x hxp hxf
    simp only
    rw [writeMem_other _ _ _ _ hxf, writeMem_other _ _ _ _ hxp]

theorem memFreeAfterLoop_tail_eq (H : Nat) (s : State) (f p : Nat)
    (hpf : p ≠ f)
    (hfe : f + (s.mem f).size * H ≠ 0) :
    memFreeAfterLoop H s f (some p) none =
      some
        { mem := writeMem
            (writeMem s.mem p { s.mem p with next := some f })
            f
            { s.mem f with next := none, used := false },
          regions := s.regions } := by
  have hfp : f ≠ p := fun h => hpf h.symm
  simp only [memFreeAfterLoop]
  rw [writeMem_other _ _ _ _ hfp]
  rw [if_neg hfe]

theorem memFreeAfterLoop_tail_facts (H : Nat) (s : State) (f p : Nat)
    (hpf : p ≠ f)
    (hfe : f + (s.mem f).size * H ≠ 0) :
    ∃ s', memFreeAfterLoop H s f (some p) none = some s' ∧
      s'.regions = s.regions ∧
      s'.mem p = { s.mem p with next := some f } ∧
      s'.mem f = { s.mem f with next := none, used := false } ∧
      (∀ x, x ≠ p → x ≠ f → s'.mem x = s.mem x) := by
  refine ⟨_, memFreeAfterLoop_tail_eq H s f p hpf hfe, rfl, ?_, ?_, ?_⟩
  · simp only
    rw [writeMem_other _ _ _ _ hpf, writeMem_same]
  · simp only
    rw [writeMem_same]
  · intro x hxp hxf
    simp only
    rw [writeMem_other _ _ _ _ hxf, writeMem_other _ _ _ _ hxp]

theorem freeChain_mem_ext (s s' : State) (h : s'.mem = s.mem) :
    ∀ (cf : Nat) (b : Option Nat), freeChain s' cf b = freeChain s cf b := by
  intro cf
  induction cf with
  | zero => intro b; cases b <;> rfl
  | succ n ih =>
    intro b
    cases b with
    | none => rfl
    | some a =>
      simp only [freeChain, h, ih]

theorem gapsP_sizes_congr (H : Nat) (s s' : State) (l : List Nat)
    (hagree : ∀ x ∈ l, (s'.mem x).size = (s.mem x).size)
    (h : gapsP H s l) : gapsP H s' l :=
  gapsP_congr H s s' l hagree h

/-- The first-fit loop, entered (as from `MemAlloc`) with `prev = NULL`,
preserves the strict-separation free-list invariant.  `pre` is the list of
already-scanned nodes (too small to fit); a split keeps `pre ++ [b]`
(the C2 truncation), an exact fit rewires the region head to `b`'s
successor — leaking every node of `pre`, since `prev` is never advanced —
leaving the still-separated suffix. -/
theorem memAllocLoop_wf (H : Nat) (hH : 0 < H) (s : State) (rIdx : Fin 4) (nelems : Nat) :
    ∀ (fuel : Nat) (l pre : List Nat) (cf : Nat) (blk : Option Nat)
      (res : Option Nat) (s' : State),
      freeChain s cf blk = some l →
      chainSeg s ((s.regions rIdx).free) pre blk →
      gapsP H s (pre ++ l) →
      nodesFreeOK s (pre ++ l) = true →
      memAllocLoop H s rIdx nelems fuel none blk = some (res, s') →
      ∃ l', (∃ fl, freeChain s' fl ((s'.regions rIdx).free) = some l') ∧
        gapsP H s' l' ∧ nodesFreeOK s' l' = true := by
  intro fuel
  induction fuel with
  | zero =>
    intro l pre cf blk res s' _ _ _ _ hloop
    exact Option.noConfusion hloop
  | succ n ih =>
    intro l pre cf blk res s' hch hseg hgaps hfree hloop
    cases blk with
    | none =>
      simp only [memAllocLoop, Option.some.injEq, Prod.mk.injEq] at hloop
      obtain ⟨hres, hs'⟩ := hloop
      subst hs'
      rw [freeChain_none_eq] at hch
      injection hch with hch
      subst hch
      refine ⟨pre, ⟨pre.length + 1, chain_of_chainSeg s pre _ hseg⟩, ?_, ?_⟩
      · simpa using hgaps
      · simpa using hfree
    | some b =>
      obtain ⟨cf', t, hcf, hl, hch'⟩ := freeChain_some_inv s cf b _ hch
      subst hl
      by_cases h1 : nelems ≤ (s.mem b).size
      · by_cases h2 : nelems < (s.mem b).size
        · -- split of node b: list truncated to pre ++ [b]
          have hbb2 : b ≠ b + ((s.mem b).size - nelems) * H := by
            have : 0 < ((s.mem b).size - nelems) * H := Nat.mul_pos (by omega) hH
            omega
          obtain ⟨s'', heq, hreg, hmb, hmb2, hfr⟩ :=
            memAllocLoop_split_facts H s rIdx nelems n none b h2 hbb2
          rw [heq] at hloop
          simp only [Option.some.injEq, Prod.mk.injEq] at hloop
          obtain ⟨hres, hs'⟩ := hloop
          subst hs'
          have hprelt : ∀ x ∈ pre, x < b :=
            fun x hx => gapsP_lt H s pre (b :: t) hgaps x hx b (List.mem_cons_self _ _)
          have hfrpre : ∀ x ∈ pre, s''.mem x = s.mem x := by
            intro x hx
            have h1x : x ≠ b := by have := hprelt x hx; omega
            have h2x : x ≠ b + ((s.mem b).size - nelems) * H := by
              have := hprelt x hx
              have hb2 : b < b + ((s.mem b).size - nelems) * H := by
                have : 0 < ((s.mem b).size - nelems) * H := Nat.mul_pos (by omega) hH
                omega
              omega
            exact hfr x h1x h2x
          refine ⟨pre ++ [b], ⟨(pre ++ [b]).length + 1, ?_⟩, ?_, ?_⟩
          · have hfree' : (s''.regions rIdx).free = (s.regions rIdx).free := by
              rw [hreg]
            rw [hfree']
            apply chain_of_chainSeg
            apply chainSeg_append _ pre [b] _ (some b) none
            · exact chainSeg_congr s s'' pre _ (some b) hfrpre hseg
            · refine ⟨rfl, ?_⟩
              show (s''.mem b).next = none
              rw [hmb]
          · -- gaps
            simp only [gapsP] at hgaps ⊢
            rw [List.chain'_append] at hgaps
            obtain ⟨hg1, _, hg3⟩ := hgaps
            rw [List.chain'_append]
            refine ⟨?_, List.chain'_singleton b, ?_⟩
            · apply gapsP_sizes_congr H s s'' pre ?_ hg1
              intro x hx
              rw [hfrpre x hx]
            · intro x hx y hy
              simp only [List.head?_cons, Option.mem_def, Option.some.injEq] at hy
              subst hy
              have hxl : x ∈ pre := by
                cases pre with
                | nil => simp at hx
                | cons a t0 => exact List.mem_of_mem_getLast? hx
              rw [hfrpre x hxl]
              exact hg3 x hx b (by simp)
          · -- nodes free
            simp only [nodesFreeOK, List.all_eq_true] at hfree ⊢
            intro x hx
            rw [List.mem_append] at hx
            cases hx with
            | inl hx =>
              rw [hfrpre x hx]
              exact hfree x (by simp [hx])
            | inr hx =>
              simp only [List.mem_singleton] at hx
              subst hx
              simp [hmb]
        · -- exact fit of node b with prev = NULL: the region head is rewired
          -- to b's successor, leaking every scanned node of pre
          obtain ⟨s'', heq, hmemeq, hreg⟩ :=
            memAllocLoop_exact_head_facts H s rIdx nelems n b h1 h2
          rw [heq] at hloop
          simp only [Option.some.injEq, Prod.mk.injEq] at hloop
          obtain ⟨hres, hs'⟩ := hloop
          subst hs'
          refine ⟨t, ⟨cf', ?_⟩, ?_, ?_⟩
          · have hfree' : (s''.regions rIdx).free = (s.mem b).next := by
              rw [hreg]
            rw [hfree', freeChain_mem_ext s s'' hmemeq]
            exact hch'
          · have hsuf : gapsP H s (b :: t) := by
              simp only [gapsP] at hgaps ⊢
              rw [List.chain'_append] at hgaps
              exact hgaps.2.1
            have hgt : gapsP H s t := (List.chain'_cons'.mp hsuf).2
            apply gapsP_sizes_congr H s s'' t ?_ hgt
            intro x _
            rw [hmemeq]
          · simp only [nodesFreeOK, List.all_eq_true] at hfree ⊢
            intro x hx
            rw [hmemeq]
            refine hfree x ?_
            rw [List.mem_append]
            exact Or.inr (List.mem_cons_of_mem _ hx)
      · -- node b too small: continue the scan (prev stays NULL)
        rw [memAllocLoop_step H s rIdx nelems n none b h1] at hloop
        refine ih t (pre ++ [b]) cf' ((s.mem b).next) res s' hch' ?_ ?_ ?_ hloop
        · exact chainSeg_append s pre [b] _ (some b) _ hseg ⟨rfl, rfl⟩
        · simpa using hgaps
        · simpa using hfree

theorem freeChain_nil_inv (s : State) (cf : Nat) (b : Option Nat)
    (h : freeChain s cf b = some []) : b = none := by
  cases b with
  | none => rfl
  | some a =>
    obtain ⟨_, _, _, hl, _⟩ := freeChain_some_inv s cf a _ h
    exact List.noConfusion hl

theorem freeChain_cons_head (s : State) (cf : Nat) (b : Option Nat) (a : Nat)
    (l : List Nat) (h : freeChain s cf b = some (a :: l)) : b = some a := by
  cases b with
  | none =>
    rw [freeChain_none_eq] at h
    injection h with h
    exact List.noConfusion h
  | some x =>
    obtain ⟨_, _, _, hl, _⟩ := freeChain_some_inv s cf x _ h
    injection hl with h1 _
    rw [h1]

theorem memFreeLoop_wf (H : Nat) (s : State) (rg : Fin 4) (f : Nat) :
    ∀ (fuel : Nat) (l pre : List Nat) (cf : Nat) (prev blk : Option Nat) (s' : State),
      freeChain s cf blk = some l →
      chainSeg s ((s.regions rg).free) pre blk →
      (pre = [] ∧ prev = none ∨ ∃ p pre0, pre = pre0 ++ [p] ∧ prev = some p) →
      gapsP H s (pre ++ l) →
      nodesFreeOK s (pre ++ l) = true →
      (s.mem f).used = true →
      (∀ a ∈ pre ++ l, a + (s.mem a).size * H ≤ f ∨ f + (s.mem f).size * H ≤ a) →
      (∀ x ∈ pre, x < f ∧ x + (s.mem x).size * H ≠ f) →
      0 < f →
      memFreeLoop H s f fuel prev blk = some s' →
      s'.regions = s.regions ∧
      ∃ l', (∃ fl, freeChain s' fl ((s.regions rg).free) = some l') ∧
        gapsP H s' l' ∧ nodesFreeOK s' l' = true := by
  intro fuel
  induction fuel with
  | zero =>
    intro l pre cf prev blk s' _ _ _ _ _ _ _ _ _ hloop
    exact Option.noConfusion hloop
  | succ n ih =>
    intro l pre cf prev blk s' hch hseg hprev hgaps hfree hused hval hpref hf hloop
    cases blk with
    | none =>
      -- end of list reached: link f as the new tail
      rw [freeChain_none_eq] at hch
      injection hch with hch
      subst hch
      rw [memFreeLoop_exit_none] at hloop
      cases hprev with
      | inl hp =>
        obtain ⟨hpre, hprevn⟩ := hp
        subst hprevn
        simp only [memFreeAfterLoop] at hloop
        exact Option.noConfusion hloop
      | inr hp =>
        obtain ⟨p, pre0, hpre, hprevs⟩ := hp
        subst hpre; subst hprevs
        have hplt : p < f := (hpref p (by simp)).1
        have hpf : p ≠ f := by omega
        have hfe : f + (s.mem f).size * H ≠ 0 := by omega
        obtain ⟨s'', heq, hregs, hmp, hmf, hfr⟩ :=
          memFreeAfterLoop_tail_facts H s f p hpf hfe
        rw [heq] at hloop
        injection hloop with hloop
        subst hloop
        have hpre0lt : ∀ x ∈ pre0, x < p := by
          intro x hx
          refine gapsP_lt H s pre0 [p] ?_ x hx p (by simp)
          simpa using hgaps
        have hfrna : ∀ x ∈ pre0 ++ [p], (s''.mem x).size = (s.mem x).size ∧
            (s''.mem x).used = (s.mem x).used ∧
            (x ≠ p → s''.mem x = s.mem x) := by
          intro x hx
          rw [List.mem_append] at hx
          cases hx with
          | inl hx =>
            have hx1 : x ≠ p := by have := hpre0lt x hx; omega
            have hx2 : x ≠ f := by have := hpre0lt x hx; have := hplt; omega
            rw [hfr x hx1 hx2]
            exact ⟨rfl, rfl, fun _ => rfl⟩
          | inr hx =>
            simp only [List.mem_singleton] at hx
            subst hx
            rw [hmp]
            exact ⟨rfl, rfl, fun h => absurd rfl h⟩
        refine ⟨hregs, (pre0 ++ [p]) ++ [f], ⟨((pre0 ++ [p]) ++ [f]).length + 1, ?_⟩, ?_, ?_⟩
        · apply chain_of_chainSeg
          rw [List.append_assoc]
          apply chainSeg_append s'' pre0 ([p] ++ [f]) _ (some p) none
          · obtain ⟨m, hseg0, hsegp⟩ := chainSeg_append_inv s pre0 [p] _ _ hseg
            obtain ⟨hm, _⟩ := hsegp
            subst hm
            refine chainSeg_congr s s'' pre0 _ (some p) ?_ hseg0
            intro x hx
            exact (hfrna x (by rw [List.mem_append]; exact Or.inl hx)).2.2
              (by have := hpre0lt x hx; omega)
          · refine ⟨rfl, ?_⟩
            show chainSeg s'' ((s''.mem p).next) [f] none
            rw [hmp]
            refine ⟨rfl, ?_⟩
            show (s''.mem f).next = none
            rw [hmf]
        · simp only [gapsP, List.append_nil] at hgaps ⊢
          rw [List.chain'_append]
          refine ⟨?_, List.chain'_singleton f, ?_⟩
          · exact gapsP_sizes_congr H s s'' (pre0 ++ [p])
              (fun x hx => (hfrna x hx).1) hgaps
          · intro x hx y hy
            rw [List.getLast?_concat] at hx
            simp only [Option.mem_def, Option.some.injEq] at hx
            simp only [List.head?_cons, Option.mem_def, Option.some.injEq] at hy
            have hple : p + (s.mem p).size * H ≤ f :=
              (hval p (by simp)).resolve_right (by have := hplt; omega)
            have hpne : p + (s.mem p).size * H ≠ f := (hpref p (by simp)).2
            rw [(hfrna x (by simp [hx])).1]
            subst hx
            subst hy
            omega
        · simp only [List.append_nil, nodesFreeOK, List.all_eq_true] at hfree ⊢
          intro x hx
          rw [List.mem_append] at hx
          cases hx with
          | inl hx0 =>
            rw [(hfrna x hx0).2.1]
            exact hfree x hx0
          | inr hx0 =>
            simp only [List.mem_singleton] at hx0
            subst hx0
            simp [hmf]
    | some b =>
      obtain ⟨cf', t, hcf, hl, hch'⟩ := freeChain_some_inv s cf b _ hch
      subst hl
      have hbfree : (s.mem b).used = false := by
        have := hfree
        simp only [nodesFreeOK, List.all_eq_true] at this
        have hb := this b (by rw [List.mem_append]; exact Or.inr (List.mem_cons_self _ _))
        simpa using hb
      have hbnef : b ≠ f := by
        intro h
        rw [h, hused] at hbfree
        exact Bool.noConfusion hbfree
      by_cases hbf : b < f
      · by_cases hcont : b + (s.mem b).size * H = f
        · -- merge into contiguous predecessor b
          have hprelt : ∀ x ∈ pre, x < b := fun x hx =>
            gapsP_lt H s pre (b :: t) hgaps x hx b (by simp)
          cases t with
          | nil =>
            have hnext : (s.mem b).next = none := freeChain_nil_inv s cf' _ hch'
            have hnon : (s.mem b).next ≠
                some (b + ((s.mem b).size + (s.mem f).size) * H) := by
              rw [hnext]
              simp
            obtain ⟨s'', heq, hregs, hmb, hfr⟩ :=
              memFreeLoop_merge_simple_facts H s f n prev b hbf hcont hnon
            rw [heq] at hloop
            injection hloop with hloop
            subst hloop
            have hfrpre : ∀ x ∈ pre, s''.mem x = s.mem x := fun x hx =>
              hfr x (by have := hprelt x hx; omega)
            refine ⟨hregs, pre ++ [b], ⟨(pre ++ [b]).length + 1, ?_⟩, ?_, ?_⟩
            · apply chain_of_chainSeg
              apply chainSeg_append s'' pre [b] _ (some b) none
              · exact chainSeg_congr s s'' pre _ (some b) hfrpre hseg
              · refine ⟨rfl, ?_⟩
                show (s''.mem b).next = none
                rw [hmb]
                exact hnext
            · simp only [gapsP, List.append_nil] at hgaps ⊢
              rw [List.chain'_append] at hgaps ⊢
              obtain ⟨hg1, _, hg3⟩ := hgaps
              refine ⟨?_, List.chain'_singleton b, ?_⟩
              · exact gapsP_sizes_congr H s s'' pre
                  (fun x hx => by rw [hfrpre x hx]) hg1
              · intro x hx y hy
                simp only [List.head?_cons, Option.mem_def, Option.some.injEq] at hy
                subst hy
                have hxpre : x ∈ pre := List.mem_of_mem_getLast? hx
                rw [hfrpre x hxpre]
                exact hg3 x hx b (by simp)
            · simp only [List.append_nil, nodesFreeOK, List.all_eq_true] at hfree ⊢
              intro x hx
              rw [List.mem_append] at hx
              cases hx with
              | inl hx0 =>
                rw [hfrpre x hx0]
                exact hfree x (by rw [List.mem_append]; exact Or.inl hx0)
              | inr hx0 =>
                simp only [List.mem_singleton] at hx0
                subst hx0
                simp only [hmb]
                simpa using hbfree
          | cons d t2 =>
            have hnext : (s.mem b).next = some d := freeChain_cons_head s cf' _ d t2 hch'
            rw [hnext] at hch'
            obtain ⟨cf2, t2', hcf2, hl2, hch2⟩ := freeChain_some_inv s cf' d _ hch'
            injection hl2 with _ hl2b
            subst hl2b
            have hbd : b + (s.mem b).size * H < d := by
              have hg := hgaps
              simp only [gapsP] at hg
              rw [List.chain'_append] at hg
              exact (List.chain'_cons.mp hg.2.1).1
            have hfd : f < d := by omega
            have htgt : ∀ x ∈ d :: t2, b < x := by
              intro x hx
              refine gapsP_lt H s (pre ++ [b]) (d :: t2) ?_ b (by simp) x hx
              simpa using hgaps
            by_cases hnest : b + ((s.mem b).size + (s.mem f).size) * H = d
            · -- nested merge: d is absorbed as well
              obtain ⟨s'', heq, hregs, hmb, hfr⟩ :=
                memFreeLoop_merge_nested_facts H s f n prev b d hbf hcont hnext hnest
                  (by omega)
              rw [heq] at hloop
              injection hloop with hloop
              subst hloop
              have hfrpre : ∀ x ∈ pre, s''.mem x = s.mem x := fun x hx =>
                hfr x (by have := hprelt x hx; omega)
              have hfrt2 : ∀ x ∈ t2, s''.mem x = s.mem x := by
                intro x hx
                refine hfr x ?_
                have := htgt x (List.mem_cons_of_mem _ hx)
                omega
              have emul : ((s.mem b).size + (s.mem f).size) * H =
                  (s.mem b).size * H + (s.mem f).size * H := Nat.add_mul _ _ _
              have emul2 : ((s.mem b).size + (s.mem f).size + (s.mem d).size) * H =
                  (s.mem b).size * H + (s.mem f).size * H + (s.mem d).size * H := by
                rw [Nat.add_mul, Nat.add_mul]
              refine ⟨hregs, pre ++ [b] ++ t2, ⟨(pre ++ [b] ++ t2).length + 1, ?_⟩, ?_, ?_⟩
              · apply chain_of_chainSeg
                rw [List.append_assoc]
                apply chainSeg_append s'' pre ([b] ++ t2) _ (some b) none
                · exact chainSeg_congr s s'' pre _ (some b) hfrpre hseg
                · refine ⟨rfl, ?_⟩
                  show chainSeg s'' ((s''.mem b).next) t2 none
                  rw [hmb]
                  show chainSeg s'' ((s.mem d).next) t2 none
                  exact chainSeg_congr s s'' t2 _ none hfrt2
                    (chainSeg_of_chain s t2 cf2 _ hch2)
              · simp only [gapsP] at hgaps ⊢
                rw [List.chain'_append] at hgaps
                obtain ⟨hg1, hg2, hg3⟩ := hgaps
                rw [List.append_assoc, List.chain'_append]
                refine ⟨?_, ?_, ?_⟩
                · exact gapsP_sizes_congr H s s'' pre
                    (fun x hx => by rw [hfrpre x hx]) hg1
                · rw [List.chain'_cons'] at hg2
                  obtain ⟨_, hg2'⟩ := hg2
                  rw [List.chain'_cons'] at hg2'
                  obtain ⟨hg2d, hg2t⟩ := hg2'
                  show List.Chain' _ ([b] ++ t2)
                  rw [List.chain'_append]
                  refine ⟨List.chain'_singleton b, ?_, ?_⟩
                  · exact gapsP_sizes_congr H s s'' t2
                      (fun x hx => by rw [hfrt2 x hx]) hg2t
                  · intro x hx y hy
                    simp only [List.getLast?_singleton, Option.mem_def,
                      Option.some.injEq] at hx
                    subst hx
                    have hdy : d + (s.mem d).size * H < y := hg2d y hy
                    rw [hmb]
                    simp only
                    omega
                · intro x hx y hy
                  cases pre with
                  | nil => simp at hx
                  | cons p0 pr =>
                    have hxpre : x ∈ p0 :: pr := List.mem_of_mem_getLast? hx
                    simp only [List.singleton_append, List.head?_cons, Option.mem_def,
                      Option.some.injEq] at hy
                    subst hy
                    have := hg3 x hx b (by simp)
                    rw [hfrpre x hxpre]
                    omega
              · simp only [nodesFreeOK, List.all_eq_true] at hfree ⊢
                intro x hx
                rw [List.mem_append] at hx
                cases hx with
                | inl hx0 =>
                  rw [List.mem_append] at hx0
                  cases hx0 with
                  | inl hx1 =>
                    rw [hfrpre x hx1]
                    exact hfree x (by rw [List.mem_append]; exact Or.inl hx1)
                  | inr hx1 =>
                    simp only [List.mem_singleton] at hx1
                    subst hx1
                    simp [hmb]
                | inr hx0 =>
                  rw [hfrt2 x hx0]
                  refine hfree x ?_
                  rw [List.mem_append]
                  exact Or.inr (List.mem_cons_of_mem _ (List.mem_cons_of_mem _ hx0))
            · -- single merge: b grows to absorb f, d stays
              have hnon : (s.mem b).next ≠
                  some (b + ((s.mem b).size + (s.mem f).size) * H) := by
                rw [hnext]
                intro h
                exact hnest (Option.some.inj h).symm
              obtain ⟨s'', heq, hregs, hmb, hfr⟩ :=
                memFreeLoop_merge_simple_facts H s f n prev b hbf hcont hnon
              rw [heq] at hloop
              injection hloop with hloop
              subst hloop
              have hfrpre : ∀ x ∈ pre, s''.mem x = s.mem x := fun x hx =>
                hfr x (by have := hprelt x hx; omega)
              have hfrdt : ∀ x ∈ d :: t2, s''.mem x = s.mem x := by
                intro x hx
                refine hfr x ?_
                have := htgt x hx
                omega
              have emul : ((s.mem b).size + (s.mem f).size) * H =
                  (s.mem b).size * H + (s.mem f).size * H := Nat.add_mul _ _ _
              have hfled : f + (s.mem f).size * H ≤ d := by
                have hvd := hval d
                  (by rw [List.mem_append]
                      exact Or.inr (List.mem_cons_of_mem _ (List.mem_cons_self _ _)))
                refine hvd.resolve_left ?_
                omega
              refine ⟨hregs, pre ++ [b] ++ (d :: t2),
                ⟨(pre ++ [b] ++ (d :: t2)).length + 1, ?_⟩, ?_, ?_⟩
              · apply chain_of_chainSeg
                rw [List.append_assoc]
                apply chainSeg_append s'' pre ([b] ++ (d :: t2)) _ (some b) none
                · exact chainSeg_congr s s'' pre _ (some b) hfrpre hseg
                · refine ⟨rfl, ?_⟩
                  show chainSeg s'' ((s''.mem b).next) (d :: t2) none
                  rw [hmb]
                  show chainSeg s'' ((s.mem b).next) (d :: t2) none
                  rw [hnext]
                  exact chainSeg_congr s s'' (d :: t2) _ none hfrdt
                    (chainSeg_of_chain s (d :: t2) cf' _ (by rw [hch']))
              · simp only [gapsP] at hgaps ⊢
                rw [List.chain'_append] at hgaps
                obtain ⟨hg1, hg2, hg3⟩ := hgaps
                rw [List.append_assoc, List.chain'_append]
                refine ⟨?_, ?_, ?_⟩
                · exact gapsP_sizes_congr H s s'' pre
                    (fun x hx => by rw [hfrpre x hx]) hg1
                · show List.Chain' _ ([b] ++ (d :: t2))
                  rw [List.chain'_append]
                  refine ⟨List.chain'_singleton b, ?_, ?_⟩
                  · refine gapsP_sizes_congr H s s'' (d :: t2)
                      (fun x hx => by rw [hfrdt x hx]) ?_
                    exact (List.chain'_cons'.mp hg2).2
                  · intro x hx y hy
                    simp only [List.getLast?_singleton, Option.mem_def,
                      Option.some.injEq] at hx
                    subst hx
                    simp only [List.head?_cons, Option.mem_def, Option.some.injEq] at hy
                    subst hy
                    rw [hmb]
                    simp only
                    omega
                · intro x hx y hy
                  cases pre with
                  | nil => simp at hx
                  | cons p0 pr =>
                    have hxpre : x ∈ p0 :: pr := List.mem_of_mem_getLast? hx
                    simp only [List.singleton_append, List.head?_cons, Option.mem_def,
                      Option.some.injEq] at hy
                    subst hy
                    have := hg3 x hx b (by simp)
                    rw [hfrpre x hxpre]
                    omega
              · simp only [nodesFreeOK, List.all_eq_true] at hfree ⊢
                intro x hx
                rw [List.mem_append] at hx
                cases hx with
                | inl hx0 =>
                  rw [List.mem_append] at hx0
                  cases hx0 with
                  | inl hx1 =>
                    rw [hfrpre x hx1]
                    exact hfree x (by rw [List.mem_append]; exact Or.inl hx1)
                  | inr hx1 =>
                    simp only [List.mem_singleton] at hx1
                    subst hx1
                    simp only [hmb]
                    simpa using hbfree
                | inr hx0 =>
                  rw [hfrdt x hx0]
                  refine hfree x ?_
                  rw [List.mem_append]
                  exact Or.inr (List.mem_cons_of_mem _ hx0)
        · -- keep scanning
          rw [memFreeLoop_step H s f n prev b hbf hcont] at hloop
          refine ih t (pre ++ [b]) cf' (some b) ((s.mem b).next) s' hch' ?_ ?_ ?_ ?_ hused ?_ ?_ hf hloop
          · exact chainSeg_append s pre [b] _ (some b) _ hseg ⟨rfl, rfl⟩
          · exact Or.inr ⟨b, pre, rfl, rfl⟩
          · simpa using hgaps
          · simpa using hfree
          · intro a ha
            refine hval a ?_
            simpa using ha
          · intro x hx
            rw [List.mem_append] at hx
            cases hx with
            | inl hx0 => exact hpref x hx0
            | inr hx0 =>
              simp only [List.mem_singleton] at hx0
              subst hx0
              exact ⟨hbf, hcont⟩
      · -- b is at or past f: exit the loop and insert f before b
        rw [memFreeLoop_exit H s f n prev b hbf] at hloop
        have hfb : f < b := by omega
        cases hprev with
        | inl hp =>
          obtain ⟨hpre, hprevn⟩ := hp
          subst hprevn
          simp only [memFreeAfterLoop] at hloop
          exact Option.noConfusion hloop
        | inr hp =>
          obtain ⟨p, pre0, hpre, hprevs⟩ := hp
          subst hpre; subst hprevs
          have hplt : p < f := (hpref p (by simp)).1
          have hpf : p ≠ f := by omega
          have hpre0lt : ∀ x ∈ pre0, x < p := by
            intro x hx
            refine gapsP_lt H s pre0 ([p] ++ (b :: t)) ?_ x hx p (by simp)
            simpa [List.append_assoc] using hgaps
          have htgt : ∀ x ∈ t, b < x := by
            intro x hx
            refine gapsP_lt H s ((pre0 ++ [p]) ++ [b]) t ?_ b (by simp) x hx
            simpa [List.append_assoc] using hgaps
          have hgsplit := hgaps
          simp only [gapsP] at hgsplit
          rw [List.chain'_append] at hgsplit
          obtain ⟨hg1, hg2, hg3⟩ := hgsplit
          have hpb : p + (s.mem p).size * H < b :=
            hg3 p (by rw [List.getLast?_concat]; rfl) b (by simp)
          have hfleb : f + (s.mem f).size * H ≤ b := by
            refine (hval b (by rw [List.mem_append]; exact Or.inr (List.mem_cons_self _ _))).resolve_left ?_
            omega
          have hpend : p + (s.mem p).size * H ≤ f :=
            (hval p (by simp)).resolve_right (by omega)
          have hpne : p + (s.mem p).size * H ≠ f := (hpref p (by simp)).2
          obtain ⟨m, hseg0, hsegp⟩ := chainSeg_append_inv s pre0 [p] _ _ hseg
          obtain ⟨hm, _⟩ := hsegp
          subst hm
          by_cases hme : f + (s.mem f).size * H = b
          · -- f absorbs the following free block b
            obtain ⟨s'', heq, hregs, hmp, hmf, hfr⟩ :=
              memFreeAfterLoop_merge_facts H s f p b hpf (by omega) hme
            rw [heq] at hloop
            injection hloop with hloop
            subst hloop
            have hfrna : ∀ x ∈ pre0, s''.mem x = s.mem x := by
              intro x hx
              have := hpre0lt x hx
              exact hfr x (by omega) (by omega)
            have hfrt : ∀ x ∈ t, s''.mem x = s.mem x := by
              intro x hx
              have := htgt x hx
              exact hfr x (by omega) (by omega)
            have emul : ((s.mem f).size + (s.mem b).size) * H =
                (s.mem f).size * H + (s.mem b).size * H := Nat.add_mul _ _ _
            refine ⟨hregs, (pre0 ++ [p]) ++ ([f] ++ t),
              ⟨((pre0 ++ [p]) ++ ([f] ++ t)).length + 1, ?_⟩, ?_, ?_⟩
            · apply chain_of_chainSeg
              rw [List.append_assoc]
              apply chainSeg_append s'' pre0 ([p] ++ ([f] ++ t)) _ (some p) none
              · exact chainSeg_congr s s'' pre0 _ (some p) hfrna hseg0
              · refine ⟨rfl, ?_⟩
                show chainSeg s'' ((s''.mem p).next) ([f] ++ t) none
                rw [hmp]
                refine ⟨rfl, ?_⟩
                show chainSeg s'' ((s''.mem f).next) t none
                rw [hmf]
                show chainSeg s'' ((s.mem b).next) t none
                exact chainSeg_congr s s'' t _ none hfrt (chainSeg_of_chain s t cf' _ hch')
            · simp only [gapsP]
              rw [List.chain'_append]
              refine ⟨?_, ?_, ?_⟩
              · refine gapsP_sizes_congr H s s'' (pre0 ++ [p]) ?_ hg1
                intro x hx
                rw [List.mem_append] at hx
                cases hx with
                | inl hx0 => rw [hfrna x hx0]
                | inr hx0 =>
                  simp only [List.mem_singleton] at hx0
                  subst hx0
                  rw [hmp]
              · show List.Chain' _ ([f] ++ t)
                rw [List.chain'_append]
                refine ⟨List.chain'_singleton f, ?_, ?_⟩
                · refine gapsP_sizes_congr H s s'' t (fun x hx => by rw [hfrt x hx]) ?_
                  exact (List.chain'_cons'.mp hg2).2
                · intro x hx y hy
                  simp only [List.getLast?_singleton, Option.mem_def,
                    Option.some.injEq] at hx
                  subst hx
                  have hyt : b + (s.mem b).size * H < y := by
                    cases t with
                    | nil => simp at hy
                    | cons t0 t1 =>
                      simp only [List.head?_cons, Option.mem_def, Option.some.injEq] at hy
                      subst hy
                      exact (List.chain'_cons.mp hg2).1
                  rw [hmf]
                  simp only
                  omega
              · intro x hx y hy
                rw [List.getLast?_concat] at hx
                simp only [Option.mem_def, Option.some.injEq] at hx
                subst hx
                simp only [List.singleton_append, List.head?_cons, Option.mem_def,
                  Option.some.injEq] at hy
                subst hy
                rw [hmp]
                simp only
                omega
            · simp only [nodesFreeOK, List.all_eq_true] at hfree ⊢
              intro x hx
              rw [List.mem_append] at hx
              cases hx with
              | inl hx0 =>
                have hx0m := hx0
                have husd : (s''.mem x).used = (s.mem x).used := by
                  rw [List.mem_append] at hx0
                  cases hx0 with
                  | inl hx1 => rw [hfrna x hx1]
                  | inr hx1 =>
                    simp only [List.mem_singleton] at hx1
                    subst hx1
                    rw [hmp]
                rw [husd]
                refine hfree x ?_
                rw [List.mem_append]
                exact Or.inl hx0m
              | inr hx0 =>
                rw [List.mem_append] at hx0
                cases hx0 with
                | inl hx1 =>
                  simp only [List.mem_singleton] at hx1
                  subst hx1
                  simp [hmf]
                | inr hx1 =>
                  rw [hfrt x hx1]
                  refine hfree x ?_
                  rw [List.mem_append]
                  exact Or.inr (List.mem_cons_of_mem _ hx1)
          · -- plain insertion of f between p and b
            obtain ⟨s'', heq, hregs, hmp, hmf, hfr⟩ :=
              memFreeAfterLoop_plain_facts H s f p b hpf hme
            rw [heq] at hloop
            injection hloop with hloop
            subst hloop
            have hfrna : ∀ x ∈ pre0, s''.mem x = s.mem x := by
              intro x hx
              have := hpre0lt x hx
              exact hfr x (by omega) (by omega)
            have hfrbt : ∀ x ∈ b :: t, s''.mem x = s.mem x := by
              intro x hx
              rcases List.mem_cons.mp hx with hx0 | hx0
              · subst hx0
                exact hfr x (by omega) (by omega)
              · have := htgt x hx0
                exact hfr x (by omega) (by omega)
            refine ⟨hregs, (pre0 ++ [p]) ++ ([f] ++ (b :: t)),
              ⟨((pre0 ++ [p]) ++ ([f] ++ (b :: t))).length + 1, ?_⟩, ?_, ?_⟩
            · apply chain_of_chainSeg
              rw [List.append_assoc]
              apply chainSeg_append s'' pre0 ([p] ++ ([f] ++ (b :: t))) _ (some p) none
              · exact chainSeg_congr s s'' pre0 _ (some p) hfrna hseg0
              · refine ⟨rfl, ?_⟩
                show chainSeg s'' ((s''.mem p).next) ([f] ++ (b :: t)) none
                rw [hmp]
                refine ⟨rfl, ?_⟩
                show chainSeg s'' ((s''.mem f).next) (b :: t) none
                rw [hmf]
                show chainSeg s'' (some b) (b :: t) none
                exact chainSeg_congr s s'' (b :: t) _ none hfrbt
                  (chainSeg_of_chain s (b :: t) cf _ hch)
            · simp only [gapsP]
              rw [List.chain'_append]
              refine ⟨?_, ?_, ?_⟩
              · refine gapsP_sizes_congr H s s'' (pre0 ++ [p]) ?_ hg1
                intro x hx
                rw [List.mem_append] at hx
                cases hx with
                | inl hx0 => rw [hfrna x hx0]
                | inr hx0 =>
                  simp only [List.mem_singleton] at hx0
                  subst hx0
                  rw [hmp]
              · show List.Chain' _ ([f] ++ (b :: t))
                rw [List.chain'_append]
                refine ⟨List.chain'_singleton f, ?_, ?_⟩
                · exact gapsP_sizes_congr H s s'' (b :: t)
                    (fun x hx => by rw [hfrbt x hx]) hg2
                · intro x hx y hy
                  simp only [List.getLast?_singleton, Option.mem_def,
                    Option.some.injEq] at hx
                  subst hx
                  simp only [List.head?_cons, Option.mem_def, Option.some.injEq] at hy
                  subst hy
                  rw [hmf]
                  simp only
                  omega
              · intro x hx y hy
                rw [List.getLast?_concat] at hx
                simp only [Option.mem_def, Option.some.injEq] at hx
                subst hx
                simp only [List.singleton_append, List.head?_cons, Option.mem_def,
                  Option.some.injEq] at hy
                subst hy
                rw [hmp]
                simp only
                omega
            · simp only [nodesFreeOK, List.all_eq_true] at hfree ⊢
              intro x hx
              rw [List.mem_append] at hx
              cases hx with
              | inl hx0 =>
                have husd : (s''.mem x).used = (s.mem x).used := by
                  rw [List.mem_append] at hx0
                  cases hx0 with
                  | inl hx1 => rw [hfrna x hx1]
                  | inr hx1 =>
                    simp only [List.mem_singleton] at hx1
                    subst hx1
                    rw [hmp]
                rw [husd]
                refine hfree x ?_
                rw [List.mem_append]
                exact Or.inl hx0
              | inr hx0 =>
                rw [List.mem_append] at hx0
                cases hx0 with
                | inl hx1 =>
                  simp only [List.mem_singleton] at hx1
                  subst hx1
                  simp [hmf]
                | inr hx1 =>
                  rw [hfrbt x hx1]
                  refine hfree x ?_
                  rw [List.mem_append]
                  exact Or.inr hx1

theorem memFree_head_merge_facts (H fuel : Nat) (s : State) (pa hd : Nat)
    (hused : (s.mem (pa - H)).used = true)
    (hfree : (s.regions (s.mem (pa - H)).region).free = some hd)
    (hlt : pa - H < hd)
    (hme : pa - H + (s.mem (pa - H)).size * H = hd) :
    ∃ s', MemFree H fuel s (some pa) = some s' ∧
      (s'.regions ((s.mem (pa - H)).region)).free = some (pa - H) ∧
      s'.mem (pa - H) = { s.mem (pa - H) with
          size := (s.mem (pa - H)).size + (s.mem hd).size,
          next := (s.mem hd).next, used := false } ∧
      (∀ x, x ≠ pa - H → s'.mem x = s.mem x) := by
  simp only [MemFree, hused, hfree, Bool.true_eq_false, if_false, if_pos hlt]
  rw [if_pos hme]
  refine ⟨_, rfl, ?_, ?_, ?_⟩
  · simp [updRegions_same]
  · simp [writeMem_same]
  · intro x hx
    simp only
    rw [writeMem_other _ _ _ _ hx]

theorem memFree_head_plain_facts (H fuel : Nat) (s : State) (pa hd : Nat)
    (hused : (s.mem (pa - H)).used = true)
    (hfree : (s.regions (s.mem (pa - H)).region).free = some hd)
    (hlt : pa - H < hd)
    (hme : pa - H + (s.mem (pa - H)).size * H ≠ hd) :
    ∃ s', MemFree H fuel s (some pa) = some s' ∧
      (s'.regions ((s.mem (pa - H)).region)).free = some (pa - H) ∧
      s'.mem (pa - H) = { s.mem (pa - H) with next := some hd, used := false } ∧
      (∀ x, x ≠ pa - H → s'.mem x = s.mem x) := by
  simp only [MemFree, hused, hfree, Bool.true_eq_false, if_false, if_pos hlt]
  rw [if_neg hme]
  refine ⟨_, rfl, ?_, ?_, ?_⟩
  · simp [updRegions_same]
  · simp [writeMem_same]
  · intro x hx
    simp only
    rw [writeMem_other _ _ _ _ hx]

/-! ## C5: the free-list ordering/coalescing invariant -/

/-- `gapsP` is decidable (it is a `List.Chain'` of a decidable relation). -/
instance gapsP_decidable (H : Nat) (s : State) (l : List Nat) :
    Decidable (gapsP H s l) :=
  inferInstanceAs (Decidable (List.Chain' (fun a b => a + (s.mem a).size * H < b) l))

/-- `memFreeLoop` diverges (models the C null-`prev` dereference) when both
`prev` and `block` are null. -/
theorem memFreeLoop_none_none (H : Nat) (s : State) (f : Nat) :
    ∀ fuel, memFreeLoop H s f fuel none none = none := by
  intro fuel
  cases fuel with
  | zero => rfl
  | succ n => rfl

/-- The state in which `MemFree`'s scan loop starts: `memleft` already
restored by the freed block's size. -/
def freeEnterState (s : State) (f : Nat) : State :=
  let r := s.regions (s.mem f).region
  let rml : REGION := { r with memleft := r.memleft + ((s.mem f).size : Int) }
  { s with regions := updRegions s.regions (s.mem f).region rml }

theorem memFree_scan_eq (H fuel : Nat) (s : State) (pa hd : Nat)
    (hused : (s.mem (pa - H)).used = true)
    (hfree : (s.regions ((s.mem (pa - H)).region)).free = some hd)
    (hge : ¬ pa - H < hd) :
    MemFree H fuel s (some pa) =
      memFreeLoop H (freeEnterState s (pa - H)) (pa - H) fuel none (some hd) := by
  simp only [MemFree, hused, hfree, Bool.true_eq_false, if_false, freeEnterState]
  rw [if_neg hge]

/-- Registering a fresh region installs a single free node spanning it. -/
theorem memAddRegion_fresh_chain (H : Nat) (s : State) (rg : Fin 4)
    (area size : Nat) (hreg : ((s.regions rg).start).isSome = false) :
    ((MemAddRegion H s rg area size).regions rg).free = some area ∧
    ((MemAddRegion H s rg area size).mem area).next = none := by
  simp only [MemAddRegion, hreg, Bool.false_eq_true, if_false]
  constructor
  · rw [updRegions_same]
  · rw [writeMem_same]

/-- `MemFree` on a valid pointer — header marked used, nonzero header
address, freed span disjoint from every free-list node — preserves the
strict-separation free-list invariant. -/
theorem memFree_preserves_inv (H fuel : Nat) (s : State) (pa : Nat)
    (l : List Nat) (cf : Nat) (s' : State)
    (hch : freeChain s cf ((s.regions ((s.mem (pa - H)).region)).free) = some l)
    (hgaps : gapsP H s l)
    (hnf : nodesFreeOK s l = true)
    (hval : ∀ a ∈ l, a + (s.mem a).size * H ≤ pa - H ∨
        pa - H + (s.mem (pa - H)).size * H ≤ a)
    (hpos : 0 < pa - H)
    (hMF : MemFree H fuel s (some pa) = some s') :
    ∃ l', (∃ fl, freeChain s' fl
        ((s'.regions ((s.mem (pa - H)).region)).free) = some l') ∧
      gapsP H s' l' ∧ nodesFreeOK s' l' = true := by
  by_cases hused : (s.mem (pa - H)).used = true
  · cases hfree : (s.regions ((s.mem (pa - H)).region)).free with
    | none =>
      simp only [MemFree, hused, Bool.true_eq_false, if_false, hfree] at hMF
      rw [memFreeLoop_none_none] at hMF
      exact Option.noConfusion hMF
    | some hd =>
      rw [hfree] at hch
      have hnfAll : ∀ x ∈ l, (s.mem x).used = false := by
        simp only [nodesFreeOK, List.all_eq_true, Bool.not_eq_true'] at hnf
        exact hnf
      have hneq : ∀ x ∈ l, x ≠ pa - H := by
        intro x hx hxe
        have h1 := hnfAll x hx
        rw [hxe, hused] at h1
        exact Bool.noConfusion h1
      by_cases hlt : pa - H < hd
      · obtain ⟨cf', t, hcf, hlht, hcht⟩ := freeChain_some_inv s cf hd l hch
        subst hlht
        obtain ⟨-, hsegt⟩ := chainSeg_of_chain s (hd :: t) cf (some hd) hch
        by_cases hme : pa - H + (s.mem (pa - H)).size * H = hd
        · obtain ⟨s2, heq, hfr2, hf2, hframe⟩ :=
            memFree_head_merge_facts H fuel s pa hd hused hfree hlt hme
          rw [heq] at hMF
          injection hMF with hMF
          subst hMF
          have hnx2 : (s2.mem (pa - H)).next = (s.mem hd).next := by rw [hf2]
          have hsz2 : (s2.mem (pa - H)).size
              = (s.mem (pa - H)).size + (s.mem hd).size := by rw [hf2]
          have hu2 : (s2.mem (pa - H)).used = false := by rw [hf2]
          have hsegt2 : chainSeg s2 ((s.mem hd).next) t none :=
            chainSeg_congr s s2 t ((s.mem hd).next) none
              (fun x hx => hframe x (hneq x (List.mem_cons_of_mem hd hx))) hsegt
          have hseg2 : chainSeg s2 (some (pa - H)) ((pa - H) :: t) none := by
            refine ⟨rfl, ?_⟩
            rw [hnx2]
            exact hsegt2
          have hchain2 := chain_of_chainSeg s2 ((pa - H) :: t) (some (pa - H)) hseg2
          have hgaps2 : gapsP H s2 ((pa - H) :: t) := by
            cases t with
            | nil => exact List.chain'_singleton _
            | cons b t2 =>
              simp only [gapsP] at hgaps ⊢
              rw [List.chain'_cons] at hgaps ⊢
              obtain ⟨h1, h2⟩ := hgaps
              constructor
              · rw [hsz2, Nat.add_mul]
                omega
              · refine gapsP_congr H s s2 (b :: t2) ?_ h2
                intro x hx
                rw [hframe x (hneq x (List.mem_cons_of_mem hd hx))]
          have hnf2 : nodesFreeOK s2 ((pa - H) :: t) = true := by
            simp only [nodesFreeOK, List.all_eq_true, Bool.not_eq_true']
            intro x hx
            rcases List.mem_cons.mp hx with h | h
            · rw [h]
              exact hu2
            · rw [hframe x (hneq x (List.mem_cons_of_mem hd h))]
              exact hnfAll x (List.mem_cons_of_mem hd h)
          refine ⟨(pa - H) :: t, ⟨((pa - H) :: t).length + 1, ?_⟩, hgaps2, hnf2⟩
          rw [hfr2]
          exact hchain2
        · obtain ⟨s2, heq, hfr2, hf2, hframe⟩ :=
            memFree_head_plain_facts H fuel s pa hd hused hfree hlt hme
          rw [heq] at hMF
          injection hMF with hMF
          subst hMF
          have hnx2 : (s2.mem (pa - H)).next = some hd := by rw [hf2]
          have hsz2 : (s2.mem (pa - H)).size = (s.mem (pa - H)).size := by rw [hf2]
          have hu2 : (s2.mem (pa - H)).used = false := by rw [hf2]
          have hsegl : chainSeg s2 (some hd) (hd :: t) none := by
            refine chainSeg_congr s s2 (hd :: t) (some hd) none ?_ ?_
            · intro x hx
              exact hframe x (hneq x hx)
            · exact ⟨rfl, hsegt⟩
          have hseg2 : chainSeg s2 (some (pa - H)) ((pa - H) :: hd :: t) none := by
            refine ⟨rfl, ?_⟩
            rw [hnx2]
            exact hsegl
          have hchain2 := chain_of_chainSeg s2 ((pa - H) :: hd :: t)
            (some (pa - H)) hseg2
          have hfirst : pa - H + (s.mem (pa - H)).size * H < hd := by
            rcases hval hd (List.mem_cons_self hd t) with h | h <;> omega
          have hgaps2 : gapsP H s2 ((pa - H) :: hd :: t) := by
            simp only [gapsP]
            rw [List.chain'_cons]
            constructor
            · rw [hsz2]
              exact hfirst
            · refine gapsP_congr H s s2 (hd :: t) ?_ hgaps
              intro x hx
              rw [hframe x (hneq x hx)]
          have hnf2 : nodesFreeOK s2 ((pa - H) :: hd :: t) = true := by
            simp only [nodesFreeOK, List.all_eq_true, Bool.not_eq_true']
            intro x hx
            rcases List.mem_cons.mp hx with h | h
            · rw [h]
              exact hu2
            · rw [hframe x (hneq x h)]
              exact hnfAll x h
          refine ⟨(pa - H) :: hd :: t, ⟨((pa - H) :: hd :: t).length + 1, ?_⟩,
            hgaps2, hnf2⟩
          rw [hfr2]
          exact hchain2
      · rw [memFree_scan_eq H fuel s pa hd hused hfree hlt] at hMF
        have hfr1 : ((freeEnterState s (pa - H)).regions
            ((s.mem (pa - H)).region)).free = some hd := by
          simp only [freeEnterState]
          rw [updRegions_same]
          exact hfree
        have hch1 : freeChain (freeEnterState s (pa - H)) cf (some hd) = some l := by
          rw [freeChain_mem_ext s (freeEnterState s (pa - H)) rfl]
          exact hch
        have hgaps1 : gapsP H (freeEnterState s (pa - H)) l :=
          gapsP_congr H s (freeEnterState s (pa - H)) l (fun x _ => rfl) hgaps
        have hnf1 : nodesFreeOK (freeEnterState s (pa - H)) l = true :=
          nodesFreeOK_congr s (freeEnterState s (pa - H)) l (fun x _ => rfl) hnf
        obtain ⟨hregs, l', ⟨fl, hchain'⟩, hgaps', hnf'⟩ :=
          memFreeLoop_wf H (freeEnterState s (pa - H)) ((s.mem (pa - H)).region)
            (pa - H) fuel l [] cf none (some hd) s' hch1 hfr1 (Or.inl ⟨rfl, rfl⟩)
            hgaps1 hnf1 hused hval
            (fun x hx => absurd hx (List.not_mem_nil x)) hpos hMF
        refine ⟨l', ⟨fl, ?_⟩, hgaps', hnf'⟩
        rw [hregs]
        exact hchain'
  · have hu : (s.mem (pa - H)).used = false := by
      cases h : (s.mem (pa - H)).used
      · rfl
      · exact absurd h hused
    have heq : MemFree H fuel s (some pa) = some s := by
      simp [MemFree, hu]
    rw [heq] at hMF
    injection hMF with hMF
    subst hMF
    exact ⟨l, ⟨cf, hch⟩, hgaps, hnf⟩

/-- C5: after every operation (register, allocate, free) on a registered
region, the region's free list is strictly ascending by block address and
fully coalesced: no two adjacent entries are contiguous.  Register
unconditionally yields such a list; Allocate preserves it; Free preserves
it when handed a valid pointer — header marked used, nonzero header
address, freed span disjoint from every free-list node (the spec's "a
pointer previously returned by Allocate"). -/
theorem C5_free_list_invariant (H : Nat) (hH : 0 < H) :
    (∀ (s : State) (rg : Fin 4) (area size : Nat) (l : List Nat) (cf : Nat),
      freeChain s cf ((s.regions rg).free) = some l →
      gapsP H s l → nodesFreeOK s l = true →
      ∃ l', (∃ fl, freeChain (MemAddRegion H s rg area size) fl
          (((MemAddRegion H s rg area size).regions rg).free) = some l') ∧
        ascOK l' = true ∧
        noMergeOK H (MemAddRegion H s rg area size) l' = true) ∧
    (∀ (s : State) (rIdx : Fin 4) (nb fuel : Nat) (l : List Nat) (cf : Nat)
        (res : Option Nat) (s' : State),
      freeChain s cf ((s.regions rIdx).free) = some l →
      gapsP H s l → nodesFreeOK s l = true →
      MemAlloc H fuel s nb rIdx = some (res, s') →
      ∃ l', (∃ fl, freeChain s' fl ((s'.regions rIdx).free) = some l') ∧
        ascOK l' = true ∧ noMergeOK H s' l' = true) ∧
    (∀ (s : State) (fuel pa : Nat) (l : List Nat) (cf : Nat) (s' : State),
      freeChain s cf ((s.regions ((s.mem (pa - H)).region)).free) = some l →
      gapsP H s l → nodesFreeOK s l = true →
      (∀ a ∈ l, a + (s.mem a).size * H ≤ pa - H ∨
        pa - H + (s.mem (pa - H)).size * H ≤ a) →
      0 < pa - H →
      MemFree H fuel s (some pa) = some s' →
      ∃ l', (∃ fl, freeChain s' fl
          ((s'.regions ((s.mem (pa - H)).region)).free) = some l') ∧
        ascOK l' = true ∧ noMergeOK H s' l' = true) := by
  refine ⟨?_, ?_, ?_⟩
  · intro s rg area size l cf hch hgaps hnf
    by_cases hreg : ((s.regions rg).start).isSome = true
    · have heq : MemAddRegion H s rg area size = s := by
        simp [MemAddRegion, hreg]
      rw [heq]
      exact ⟨l, ⟨cf, hch⟩, ascOK_of_gapsP H s l hgaps,
        noMergeOK_of_gapsP H s l hgaps⟩
    · have hreg' : ((s.regions rg).start).isSome = false := by
        cases h : ((s.regions rg).start).isSome
        · rfl
        · exact absurd h hreg
      obtain ⟨hfr2, hnx2⟩ := memAddRegion_fresh_chain H s rg area size hreg'
      have hseg : chainSeg (MemAddRegion H s rg area size) (some area) [area] none :=
        ⟨rfl, hnx2⟩
      have hchain := chain_of_chainSeg (MemAddRegion H s rg area size)
        [area] (some area) hseg
      refine ⟨[area], ⟨[area].length + 1, ?_⟩, rfl, rfl⟩
      rw [hfr2]
      exact hchain
  · intro s rIdx nb fuel l cf res s' hch hgaps hnf halloc
    simp only [MemAlloc] at halloc
    obtain ⟨l', ⟨fl, hchain'⟩, hgaps', hnf'⟩ :=
      memAllocLoop_wf H hH s rIdx ((nb + H - 1) / H + 1) fuel l [] cf
        ((s.regions rIdx).free) res s' hch rfl hgaps hnf halloc
    exact ⟨l', ⟨fl, hchain'⟩, ascOK_of_gapsP H s' l' hgaps',
      noMergeOK_of_gapsP H s' l' hgaps'⟩
  · intro s fuel pa l cf s' hch hgaps hnf hval hpos hMF
    obtain ⟨l', hex, hgaps', hnf'⟩ :=
      memFree_preserves_inv H fuel s pa l cf s' hch hgaps hnf hval hpos hMF
    exact ⟨l', hex, ascOK_of_gapsP H s' l' hgaps',
      noMergeOK_of_gapsP H s' l' hgaps'⟩

/-- Witness for `C5_free_list_invariant`: the Free clause applied to the
reachable state `sT2` (free list `[0]`, used blocks at 104 and 128),
freeing payload pointer `136` (header `128`), which yields `sT3`. -/
theorem C5_free_list_invariant_witness :
    (0 : Nat) < 8 ∧
    ∃ l', (∃ fl, freeChain sT3 fl
        ((sT3.regions ((sT2.mem (136 - 8)).region)).free) = some l') ∧
      ascOK l' = true ∧ noMergeOK 8 sT3 l' = true :=
  ⟨by decide,
   (C5_free_list_invariant 8 (by decide)).2.2 sT2 30 136 [0] 30 sT3
     (by decide) (List.chain'_singleton 0) (by decide) (by decide) (by decide)
     (by rfl)⟩
